import Mathlib

/-!
Verification of the bobbot search-tree engine and its tic-tac-toe adapter.

The game functions below are shallow embeddings of
src/bobbot/games/tictactoe.py; the engine functions embed
src/bobbot/search_tree.py.  The SearchNode and GameAdapter module of the
repository is not part of the provided sources, so the node operations
(expand, merge, successor lookup) are modelled from the specification and
marked as such in their doc comments.
-/

namespace Bobbot

/-! ## Game model (src/bobbot/games/tictactoe.py) -/

def PLAYER_X : Nat := 1

def PLAYER_O : Nat := 2

/-- A board coordinate, written (column, row) as in the Python source. -/
abbrev Coord := Fin 3 × Fin 3

/-- The board dict of the source, as a total function on the nine coords. -/
abbrev Board := Coord → Option Nat

/-- The GameState namedtuple of the source. -/
structure GameState where
  board : Board
  active_player : Option Nat

instance : DecidableEq GameState := fun a b =>
  decidable_of_iff (a.board = b.board ∧ a.active_player = b.active_player)
    (by cases a; cases b; simp)

/-- The symbol dict of player_symbol.  In Python a lookup of any value other
than PLAYER_X, PLAYER_O or None raises KeyError; that case is modelled by
the unreachable default character.  On the valid cells and players that the
game produces the default is never used. -/
def player_symbol : Option Nat → Char
  | some 1 => 'X'
  | some 2 => 'O'
  | none => ' '
  | _ => '?'

def starting_state : GameState :=
  { board := fun _ => none, active_player := some PLAYER_X }

def range3 : List (Fin 3) := List.finRange 3

/-- The iteration order of the comprehension for x in range(3) for y in
range(3) used both by all_legal_moves and node_key. -/
def allCoords : List Coord := range3.flatMap fun x => range3.map fun y => (x, y)

def is_winner (s : GameState) (p : Nat) : Bool :=
  let row := range3.any fun b_row => range3.all fun b_column =>
    s.board (b_column, b_row) == some p
  let column := range3.any fun b_column => range3.all fun b_row =>
    s.board (b_column, b_row) == some p
  let diagonal_a := range3.all fun b => s.board (b, b) == some p
  let diagonal_b := range3.all fun b => s.board (b, 2 - b) == some p
  row || column || diagonal_a || diagonal_b

def is_finished (s : GameState) : Bool :=
  (is_winner s PLAYER_X || is_winner s PLAYER_O) ||
    allCoords.all fun c => (s.board c).isSome

/-- winner raises ValueError on a non-finished state, modelled as the error
branch of Except. -/
def winner (s : GameState) : Except Unit (Option Nat) :=
  if is_winner s PLAYER_X then .ok (some PLAYER_X)
  else if is_winner s PLAYER_O then .ok (some PLAYER_O)
  else if !is_finished s then .error ()
  else .ok none

/-- The coordinate range asserts of the source are discharged by the Fin 3
coordinate type. -/
def is_legal_move (s : GameState) (c : Coord) : Bool :=
  !is_finished s && (s.board c).isNone

/-- The successor board dict of make_move: a copy of the board with the
moved-on cell set to the active player of the predecessor. -/
def updateBoard (b : Board) (c : Coord) (v : Option Nat) : Board :=
  fun c2 => if c2 = c then v else b c2

/-- The successor construction of make_move, after its legality check: the
board is copied with the moved-on cell set to the active player, and the
next active player is none when the tentative successor is finished,
otherwise the other player. -/
def move_body (s : GameState) (c : Coord) : GameState :=
  { board := updateBoard s.board c s.active_player,
    active_player :=
      if is_finished { board := updateBoard s.board c s.active_player,
                       active_player := none } then none
      else if s.active_player = some PLAYER_X then some PLAYER_O
      else some PLAYER_X }

/-- make_move raises ValueError on an illegal move, modelled as none. -/
def make_move (s : GameState) (c : Coord) : Option GameState :=
  if is_legal_move s c then some (move_body s c) else none

def all_legal_moves (s : GameState) : List Coord :=
  allCoords.filter (is_legal_move s)

/-- The dict with keys PLAYER_X and PLAYER_O that evaluate returns. -/
structure ScorePair where
  x : ℚ
  o : ℚ
deriving DecidableEq

def evaluate (s : GameState) : ScorePair :=
  if !is_finished s then { x := 0, o := 0 }
  else if is_winner s PLAYER_X then { x := 1, o := -1 }
  else if is_winner s PLAYER_O then { x := -1, o := 1 }
  else { x := -(1/2), o := -(1/2) }

def node_key (s : GameState) : String :=
  ⟨allCoords.map fun c => player_symbol (s.board c)⟩

/-! ## Validity invariant for reachable states -/

/-- A board cell produced by play: empty or one of the two players. -/
def cellOK (c : Option Nat) : Prop :=
  c = none ∨ c = some PLAYER_X ∨ c = some PLAYER_O

instance (c : Option Nat) : Decidable (cellOK c) := by
  unfold cellOK; infer_instance

/-- Number of cells of the board holding player p. -/
def countP (b : Board) (p : Nat) : Nat :=
  (Finset.univ.filter fun c : Coord => b c = some p).card

/-- The active player that the play rules force for a given board: none
once finished, else X when the move counts are level, else O. -/
def derivedPlayer (b : Board) : Option Nat :=
  if is_finished { board := b, active_player := none } then none
  else if countP b PLAYER_X = countP b PLAYER_O then some PLAYER_X
  else some PLAYER_O

def ValidState (s : GameState) : Prop :=
  (∀ c, cellOK (s.board c)) ∧
  s.active_player = derivedPlayer s.board ∧
  (countP s.board PLAYER_X = countP s.board PLAYER_O ∨
   countP s.board PLAYER_X = countP s.board PLAYER_O + 1)

instance (s : GameState) : Decidable (ValidState s) := by
  unfold ValidState; infer_instance

/-- States reachable from the starting state by legal moves. -/
inductive Reachable : GameState → Prop
  | start : Reachable starting_state
  | step {s c} : Reachable s → is_legal_move s c = true → Reachable (move_body s c)

/-! ## Invariant preservation and key injectivity -/

theorem derivedPlayer_def (b : Board) :
    derivedPlayer b =
      if is_finished ⟨b, none⟩ = true then none
      else if countP b PLAYER_X = countP b PLAYER_O then some PLAYER_X
      else some PLAYER_O := rfl

theorem is_finished_reconstruct (s : GameState) :
    is_finished ⟨s.board, none⟩ = is_finished s := rfl

theorem move_body_board (s : GameState) (c : Coord) :
    (move_body s c).board = updateBoard s.board c s.active_player := rfl

theorem move_body_active (s : GameState) (c : Coord) :
    (move_body s c).active_player =
      if is_finished ⟨updateBoard s.board c s.active_player, none⟩ = true then none
      else if s.active_player = some PLAYER_X then some PLAYER_O
      else some PLAYER_X := rfl

theorem legal_parts {s : GameState} {c : Coord} (hl : is_legal_move s c = true) :
    is_finished s = false ∧ s.board c = none := by
  unfold is_legal_move at hl
  simp only [Bool.and_eq_true, Bool.not_eq_true'] at hl
  exact ⟨hl.1, Option.isNone_iff_eq_none.mp hl.2⟩

theorem countP_update_eq (b : Board) (c : Coord) (v : Option Nat) (p : Nat)
    (hb : ¬ b c = some p) (hv : v = some p) :
    countP (updateBoard b c v) p = countP b p + 1 := by
  unfold countP
  have hset : (Finset.univ.filter fun c2 : Coord => updateBoard b c v c2 = some p)
      = insert c (Finset.univ.filter fun c2 : Coord => b c2 = some p) := by
    ext x
    by_cases hx : x = c
    · subst hx; simp [updateBoard, hv]
    · simp [updateBoard, hx]
  rw [hset, Finset.card_insert_of_not_mem (by simp [hb])]

theorem countP_update_ne (b : Board) (c : Coord) (v : Option Nat) (p : Nat)
    (hb : ¬ b c = some p) (hv : ¬ v = some p) :
    countP (updateBoard b c v) p = countP b p := by
  unfold countP
  congr 1
  ext x
  by_cases hx : x = c
  · subst hx; simp [updateBoard, hv, hb]
  · simp [updateBoard, hx]

theorem cellOK_update {b : Board} {c : Coord} {v : Option Nat}
    (hb : ∀ c2, cellOK (b c2)) (hv : cellOK v) (c2 : Coord) :
    cellOK (updateBoard b c v c2) := by
  unfold updateBoard
  by_cases h2 : c2 = c
  · rw [if_pos h2]; exact hv
  · rw [if_neg h2]; exact hb c2

theorem valid_step {s : GameState} {c : Coord} (hv : ValidState s)
    (hl : is_legal_move s c = true) : ValidState (move_body s c) := by
  obtain ⟨hcells, hap, hcnt⟩ := hv
  obtain ⟨hfin, hempty⟩ := legal_parts hl
  have hx_or :
      (s.active_player = some PLAYER_X ∧
        countP s.board PLAYER_X = countP s.board PLAYER_O) ∨
      (s.active_player = some PLAYER_O ∧
        countP s.board PLAYER_X = countP s.board PLAYER_O + 1) := by
    by_cases hcc : countP s.board PLAYER_X = countP s.board PLAYER_O
    · left
      refine ⟨?_, hcc⟩
      rw [hap, derivedPlayer_def, is_finished_reconstruct]
      simp [hfin, hcc]
    · right
      refine ⟨?_, hcnt.resolve_left hcc⟩
      rw [hap, derivedPlayer_def, is_finished_reconstruct]
      simp [hfin, hcc]
  rcases hx_or with ⟨ha, hcc⟩ | ⟨ha, hcc⟩
  · have hXc : countP (updateBoard s.board c (some PLAYER_X)) PLAYER_X
        = countP s.board PLAYER_X + 1 :=
      countP_update_eq _ _ _ _ (by rw [hempty]; simp) rfl
    have hOc : countP (updateBoard s.board c (some PLAYER_X)) PLAYER_O
        = countP s.board PLAYER_O :=
      countP_update_ne _ _ _ _ (by rw [hempty]; simp) (by decide)
    refine ⟨?_, ?_, ?_⟩
    · intro c2
      rw [move_body_board, ha]
      exact cellOK_update hcells (by decide) c2
    · rw [move_body_active, move_body_board, ha, derivedPlayer_def]
      rw [hXc, hOc, hcc]
      by_cases hf2 : is_finished ⟨updateBoard s.board c (some PLAYER_X), none⟩ = true
      · simp [hf2]
      · simp only [Bool.not_eq_true] at hf2
        simp [hf2]
    · right
      rw [move_body_board, ha, hXc, hOc, hcc]
  · have hXc : countP (updateBoard s.board c (some PLAYER_O)) PLAYER_X
        = countP s.board PLAYER_X :=
      countP_update_ne _ _ _ _ (by rw [hempty]; simp) (by decide)
    have hOc : countP (updateBoard s.board c (some PLAYER_O)) PLAYER_O
        = countP s.board PLAYER_O + 1 :=
      countP_update_eq _ _ _ _ (by rw [hempty]; simp) rfl
    refine ⟨?_, ?_, ?_⟩
    · intro c2
      rw [move_body_board, ha]
      exact cellOK_update hcells (by decide) c2
    · rw [move_body_active, move_body_board, ha, derivedPlayer_def]
      rw [hXc, hOc, hcc]
      by_cases hf2 : is_finished ⟨updateBoard s.board c (some PLAYER_O), none⟩ = true
      · simp [hf2]
      · simp only [Bool.not_eq_true] at hf2
        simp [hf2]
    · left
      rw [move_body_board, ha, hXc, hOc, hcc]

theorem reach_valid {s : GameState} (h : Reachable s) : ValidState s := by
  induction h with
  | start => decide
  | step _ hl ih => exact valid_step ih hl

theorem cell_inj (x y : Option Nat) (hx : cellOK x) (hy : cellOK y)
    (h : player_symbol x = player_symbol y) : x = y := by
  rcases hx with rfl | rfl | rfl <;> rcases hy with rfl | rfl | rfl <;>
    revert h <;> decide

theorem allCoords_mem (c : Coord) : c ∈ allCoords := by
  obtain ⟨i, j⟩ := c
  fin_cases i <;> fin_cases j <;> decide

theorem key_inj {s1 s2 : GameState}
    (h1 : ∀ c, cellOK (s1.board c)) (h2 : ∀ c, cellOK (s2.board c))
    (hk : node_key s1 = node_key s2) : s1.board = s2.board := by
  unfold node_key at hk
  injection hk with hdata
  have hpt : ∀ c ∈ allCoords,
      player_symbol (s1.board c) = player_symbol (s2.board c) := by
    rw [← List.map_eq_map_iff]
    exact hdata
  funext c
  exact cell_inj _ _ (h1 c) (h2 c) (hpt c (allCoords_mem c))

/-! ## Claims about the game functions -/

/-- A full drawn board: rows X X O, O O X, X X O.  No line is held by a
single player, so the state is a finished draw. -/
def drawBoard : Board := fun c =>
  if c.2 = 0 then (if c.1 = 2 then some 2 else some 1)
  else if c.2 = 1 then (if c.1 = 2 then some 1 else some 2)
  else (if c.1 = 2 then some 2 else some 1)

def drawState : GameState := { board := drawBoard, active_player := none }

/-- C1 counterexample: the drawn terminal state evaluates to minus one half
for both players, so the evaluation is not zero-sum there. -/
theorem c1_zero_sum_draw_counterexample :
    is_finished drawState = true ∧
    ¬ (evaluate drawState).x = -(evaluate drawState).o := by
  have hfin : is_finished drawState = true := by decide
  have hx : is_winner drawState PLAYER_X = false := by decide
  have ho : is_winner drawState PLAYER_O = false := by decide
  have hev : evaluate drawState = { x := -(1/2), o := -(1/2) } := by
    unfold evaluate
    rw [hfin, hx, ho]
    simp
  refine ⟨hfin, ?_⟩
  rw [hev]
  norm_num

/-- C1 amended: on every terminal state the evaluation is either zero-sum
(when one player holds a winning line) or assigns minus one half to both
players (the drawn case). -/
theorem c1_terminal_evaluation_amended (s : GameState)
    (h : is_finished s = true) :
    (evaluate s).x = -(evaluate s).o ∨
    ((evaluate s).x = -(1/2) ∧ (evaluate s).o = -(1/2)) := by
  unfold evaluate
  rw [h]
  by_cases hx : is_winner s PLAYER_X = true
  · simp [hx]
  · by_cases ho : is_winner s PLAYER_O = true
    · simp [hx, ho]
    · simp [hx, ho]

/-- Witness for the amended C1 theorem at the concrete drawn state. -/
theorem c1_terminal_evaluation_amended_witness :
    (evaluate drawState).x = -(evaluate drawState).o ∨
    ((evaluate drawState).x = -(1/2) ∧ (evaluate drawState).o = -(1/2)) :=
  c1_terminal_evaluation_amended drawState (by decide)

/-- C2: on reachable states the canonical key is equal exactly when the
states agree on both the board and the active player; the active player of
a reachable state is a function of its board, so the nine-cell key decides
full state identity. -/
theorem c2_node_key_canonical (s1 s2 : GameState)
    (h1 : Reachable s1) (h2 : Reachable s2) :
    node_key s1 = node_key s2 ↔ s1 = s2 := by
  constructor
  · intro hk
    have v1 := reach_valid h1
    have v2 := reach_valid h2
    have hb : s1.board = s2.board := key_inj v1.1 v2.1 hk
    have ha : s1.active_player = s2.active_player := by
      rw [v1.2.1, v2.2.1, hb]
    cases s1
    cases s2
    simp only at hb ha
    rw [hb, ha]
  · intro h
    rw [h]

/-- Witness for C2 at two concrete reachable states: the starting state and
its successor after the move on cell (0, 0). -/
theorem c2_node_key_canonical_witness :
    (node_key starting_state = node_key starting_state ↔
      starting_state = starting_state) ∧
    (node_key starting_state = node_key (move_body starting_state (0, 0)) ↔
      starting_state = move_body starting_state (0, 0)) :=
  ⟨c2_node_key_canonical starting_state starting_state .start .start,
   c2_node_key_canonical starting_state (move_body starting_state (0, 0))
     .start (.step .start (by decide))⟩

/-- C9: on every non-finished state winner fails, and on every finished
state it returns a winning player, or none when no player holds a line. -/
theorem c9_winner_contract (s : GameState) :
    (is_finished s = false → winner s = .error ()) ∧
    (is_finished s = true →
      (∃ p, is_winner s p = true ∧ winner s = .ok (some p)) ∨
      (winner s = .ok none ∧ is_winner s PLAYER_X = false ∧
        is_winner s PLAYER_O = false)) := by
  constructor
  · intro h
    have hx : is_winner s PLAYER_X = false := by
      by_contra hx
      simp only [Bool.not_eq_false] at hx
      simp [is_finished, hx] at h
    have ho : is_winner s PLAYER_O = false := by
      by_contra ho
      simp only [Bool.not_eq_false] at ho
      simp [is_finished, ho] at h
    simp [winner, hx, ho, h]
  · intro h
    by_cases hx : is_winner s PLAYER_X = true
    · exact Or.inl ⟨PLAYER_X, hx, by simp [winner, hx]⟩
    · by_cases ho : is_winner s PLAYER_O = true
      · exact Or.inl ⟨PLAYER_O, ho, by
          simp only [Bool.not_eq_true] at hx
          simp [winner, hx, ho]⟩
      · simp only [Bool.not_eq_true] at hx ho
        exact Or.inr ⟨by simp [winner, hx, ho, h], hx, ho⟩

/-- Witness for the C9 theorem: the starting state has no winner yet and
querying it fails; the drawn state yields a result without error. -/
theorem c9_winner_contract_witness :
    winner starting_state = .error () ∧
    ((∃ p, is_winner drawState p = true ∧ winner drawState = .ok (some p)) ∨
      (winner drawState = .ok none ∧ is_winner drawState PLAYER_X = false ∧
        is_winner drawState PLAYER_O = false)) :=
  ⟨(c9_winner_contract starting_state).1 (by decide),
   (c9_winner_contract drawState).2 (by decide)⟩

/-! ## Engine model (src/bobbot/search_tree.py)

The SearchNode and GameAdapter module of the repository is not among the
provided sources; node-level operations below are modelled from the
specification and say so in their doc comments.  The table-level and
mixin-level functions embed the provided search_tree.py. -/

/-- Modelled from the spec: a Search Node wraps one canonical game state
and owns its expansion status and its successor map from legal move to the
canonical key of the resulting node.  The per-player score and the move
selection metadata play no part in the claims below and are omitted. -/
structure SNode where
  state : GameState
  is_expanded : Bool
  succ : List (Coord × String)
deriving DecidableEq

/-- The transposition table dict, as an insertion-ordered association
list from canonical key to node. -/
abbrev Table := List (String × SNode)

/-- Delegation of the node key to the adapter over the wrapped state. -/
def nkey (n : SNode) : String := node_key n.state

def tlookup : Table → String → Option SNode
  | [], _ => none
  | (k2, n) :: t, k => if k2 = k then some n else tlookup t k

/-- Assignment to an existing dict key: replaces the stored node in place. -/
def tset : Table → String → SNode → Table
  | [], _, _ => []
  | (k2, n2) :: t, k, n => if k2 = k then (k2, n) :: t else (k2, n2) :: tset t k n

def hasMove (l : List (Coord × String)) (m : Coord) : Bool :=
  l.any fun q => decide (q.1 = m)

/-- Modelled from the spec: merge combines the successor maps of two nodes
reaching the same canonical key (union, keeping the entries of the
resident node) and keeps the expansion flag monotone. -/
def mergeNode (a b : SNode) : SNode :=
  { state := a.state,
    is_expanded := a.is_expanded || b.is_expanded,
    succ := a.succ ++ b.succ.filter fun q => !hasMove a.succ q.1 }

/-- BaseAI.add_node: insert the node if its key is new, else merge it into
the resident node; the returned flag reports whether it was new. -/
def add_node (t : Table) (n : SNode) : Table × Bool :=
  match tlookup t (nkey n) with
  | some m => (tset t (nkey n) (mergeNode m n), false)
  | none => (t ++ [(nkey n, n)], true)

/-- Modelled from the spec: a freshly constructed, not yet table-resident
node, unexpanded and with an empty successor map. -/
def freshNode (s : GameState) : SNode :=
  { state := s, is_expanded := false, succ := [] }

/-- The successor map that expansion populates: one entry per legal move,
holding the canonical key of the state the move produces. -/
def smapOf (s : GameState) : List (Coord × String) :=
  (all_legal_moves s).map fun m => (m, node_key (move_body s m))

/-- BaseAI.expand_single_node on the table entry at key k.  The node side
is modelled from the spec: expand enumerates the legal moves of the
wrapped state, builds one fresh successor node per move, marks the node
expanded and populates its successor map with the computed keys; every
produced successor is routed through add_node.  Every call site in the
source guards the call with the is_expanded flag, so the InvalidStateError
of a second expansion is never raised and is not modelled; a node object
outside the table likewise never occurs at the embedded call sites, so
that case is a no-op here.  The returned flag embeds the source expression
len(old) + len(new) > 0, which holds exactly when the node has at least
one legal move. -/
def expand_single_node (t : Table) (k : String) : Table × Bool :=
  match tlookup t k with
  | none => (t, false)
  | some n =>
    let moves := all_legal_moves n.state
    let t1 := tset t k { state := n.state, is_expanded := true, succ := smapOf n.state }
    let t2 := moves.foldl (fun acc m => (add_node acc (freshNode (move_body n.state m))).1) t1
    (t2, !moves.isEmpty)

/-- The engine state of BaseAI: the transposition table and the current
node, held by canonical key; the current node of the source is an object
reference into the table, modelled as key plus lookup. -/
structure Engine where
  table : Table
  current : String
deriving DecidableEq

/-- BaseAI constructor: a table holding the single starting node. -/
def init_engine (s : GameState) : Engine :=
  { table := (add_node [] (freshNode s)).1, current := node_key s }

inductive EngineError
  | illegalMove
  | invalidState
deriving DecidableEq

/-- BaseAI.make_move: expand the current node when it is not yet expanded,
then advance the current reference along the successor map.  The successor
lookup is modelled from the spec: a move absent from the successor map of
the current node fails with IllegalMoveError.  The function returns the
engine together with an optional error because a Python exception leaves
the mutations performed before the raise (the insertions of the expansion)
in place. -/
def base_make_move (E : Engine) (m : Coord) : Engine × Option EngineError :=
  match tlookup E.table E.current with
  | none => (E, some .invalidState)
  | some n =>
    let t1 := if n.is_expanded then E.table else (expand_single_node E.table E.current).1
    match tlookup t1 E.current with
    | none => ({ table := t1, current := E.current }, some .invalidState)
    | some n1 =>
      match n1.succ.find? (fun q => decide (q.1 = m)) with
      | some q => ({ table := t1, current := q.2 }, none)
      | none => ({ table := t1, current := E.current }, some .illegalMove)

/-- The successor keys recorded by the table entry at key k; the Python
lookup search_tree[k] raises KeyError for an absent key, a case the
closure invariant of claim C10 proves unreachable in the pruning sweep. -/
def succKeysAt (t : Table) (k : String) : List String :=
  match tlookup t k with
  | some n => n.succ.map Prod.snd
  | none => []

/-- One absorption step of the transitive-hull loop of
NaivePruningMixin.make_move: the hull swallows the frontier together with
every successor key recorded on it. -/
def reachStep (t : Table) (s : Finset String) : Finset String :=
  s ∪ s.biUnion fun k => (succKeysAt t k).toFinset

/-- The transitive hull that the pruning while loop computes, reached as a
fixed point of the absorption step; as many steps as the table has entries
always suffice. -/
def reachSet (t : Table) (root : String) : Finset String :=
  (reachStep t)^[t.length] {root}

/-- NaivePruningMixin.make_move: perform the move, then delete every table
entry whose key is outside the transitive hull of the new current node. -/
def pruned_make_move (E : Engine) (m : Coord) : Engine × Option EngineError :=
  match base_make_move E m with
  | (E1, some e) => (E1, some e)
  | (E1, none) =>
    ({ table := E1.table.filter fun p => decide (p.1 ∈ reachSet E1.table E1.current),
       current := E1.current }, none)

/-- OneStepSearchMixin.step_search_tree_expansion: snapshot every node not
yet expanded, expand each of them once, and report whether any expansion
call reported work. -/
def one_step (E : Engine) : Engine × Bool :=
  let unexpanded := (E.table.filter fun p => !p.2.is_expanded).map Prod.fst
  let r := unexpanded.foldl
    (fun acc k =>
      let st := expand_single_node acc.1 k
      (st.1, st.2 || acc.2))
    (E.table, false)
  ({ table := r.1, current := E.current }, r.2)

/-- BoundedExpansionMixin.step_search_tree_expansion, over the wrapped
step of the inner mixin and the measured wall-clock seconds of that step
(an input of the model, since real time is outside the embedding).  A zero
limit means unlimited; budget exhaustion is reported through the returned
boolean, never as an error value. -/
def bounded_step (node_limit : Nat) (time_limit elapsed_time : ℚ)
    (inner : Engine → Engine × Bool) (E : Engine) : Engine × Bool :=
  let r := inner E
  let limit_exceeded :=
    (decide (node_limit ≠ 0) && decide (r.1.table.length ≥ node_limit)) ||
    (decide (time_limit ≠ 0) && decide (elapsed_time ≥ time_limit))
  (r.1, r.2 && !limit_exceeded)

def allExpanded (t : Table) : Bool := t.all fun p => p.2.is_expanded

/-- FullExpansionMixin.expand_search_tree with the one-step-all sweep as
inner step.  The Python while loop carries no bound; the explicit fuel
embeds it, and theorem C8 shows that the fixed point is reached within the
fuel, which is how the loop terminates. -/
def full_expand : Nat → Engine → Engine
  | 0, E => E
  | fuel + 1, E => if allExpanded E.table then E else full_expand fuel (one_step E).1

def isExpandedAt (t : Table) (k : String) : Bool :=
  match tlookup t k with
  | some n => n.is_expanded
  | none => false

/-! ## Engine invariants -/

/-- Consistency of one table entry: the wrapped state is a valid board,
the stored key is its canonical key, an expanded node records exactly the
legal successor map of its state and an unexpanded node records nothing. -/
def NodeOK (k : String) (n : SNode) : Prop :=
  ValidState n.state ∧ node_key n.state = k ∧
  (n.is_expanded = true → n.succ = smapOf n.state) ∧
  (n.is_expanded = false → n.succ = [])

def keysOf (t : Table) : List String := t.map Prod.fst

def WFT (t : Table) : Prop := (keysOf t).Nodup ∧ ∀ p ∈ t, NodeOK p.1 p.2

def WF (E : Engine) : Prop := WFT E.table ∧ (tlookup E.table E.current).isSome = true

/-- The successor-closure invariant of claim C10: every successor key
recorded anywhere in the table is itself a key of a resident node. -/
def ClosedT (t : Table) : Prop :=
  ∀ p ∈ t, ∀ q ∈ p.2.succ, (tlookup t q.2).isSome = true

instance (k : String) (n : SNode) : Decidable (NodeOK k n) := by
  unfold NodeOK; infer_instance

instance (t : Table) : Decidable (WFT t) := by
  unfold WFT; infer_instance

instance (E : Engine) : Decidable (WF E) := by
  unfold WF; infer_instance

instance (t : Table) : Decidable (ClosedT t) := by
  unfold ClosedT; infer_instance

/-! ## Table operation lemmas -/

theorem tlookup_cons (k2 : String) (n2 : SNode) (t : Table) (k : String) :
    tlookup ((k2, n2) :: t) k = if k2 = k then some n2 else tlookup t k := rfl

theorem tset_cons (k2 : String) (n2 : SNode) (t : Table) (k : String) (n : SNode) :
    tset ((k2, n2) :: t) k n =
      if k2 = k then (k2, n) :: t else (k2, n2) :: tset t k n := rfl

theorem tlookup_isSome_iff_mem (t : Table) (k : String) :
    (tlookup t k).isSome = true ↔ k ∈ keysOf t := by
  induction t with
  | nil => simp [tlookup, keysOf]
  | cons p t ih =>
    obtain ⟨k2, n⟩ := p
    rw [tlookup_cons]
    by_cases h : k2 = k
    · subst h
      simp [keysOf]
    · rw [if_neg h]
      simp only [keysOf, List.map_cons, List.mem_cons]
      rw [ih]
      simp [keysOf, Ne.symm h]

theorem tlookup_mem {t : Table} {k : String} {n : SNode}
    (h : tlookup t k = some n) : (k, n) ∈ t := by
  induction t with
  | nil => simp [tlookup] at h
  | cons p t ih =>
    obtain ⟨k2, n2⟩ := p
    rw [tlookup_cons] at h
    by_cases h2 : k2 = k
    · subst h2
      rw [if_pos rfl] at h
      obtain rfl : n2 = n := Option.some.inj h
      exact List.mem_cons_self _ _
    · rw [if_neg h2] at h
      exact List.mem_cons_of_mem _ (ih h)

theorem tlookup_append_some {t1 : Table} {k : String} {n : SNode}
    (t2 : Table) (h : tlookup t1 k = some n) :
    tlookup (t1 ++ t2) k = some n := by
  induction t1 with
  | nil => simp [tlookup] at h
  | cons p t ih =>
    obtain ⟨k2, n2⟩ := p
    rw [tlookup_cons] at h
    rw [List.cons_append, tlookup_cons]
    by_cases h2 : k2 = k
    · rw [if_pos h2] at h ⊢
      exact h
    · rw [if_neg h2] at h ⊢
      exact ih h

theorem tlookup_append_none {t1 : Table} {k : String}
    (t2 : Table) (h : tlookup t1 k = none) :
    tlookup (t1 ++ t2) k = tlookup t2 k := by
  induction t1 with
  | nil => simp [tlookup]
  | cons p t ih =>
    obtain ⟨k2, n2⟩ := p
    rw [tlookup_cons] at h
    rw [List.cons_append, tlookup_cons]
    by_cases h2 : k2 = k
    · rw [if_pos h2] at h
      exact absurd h (by simp)
    · rw [if_neg h2] at h ⊢
      exact ih h

theorem tlookup_single (k k2 : String) (n : SNode) :
    tlookup [(k2, n)] k = if k2 = k then some n else none := rfl

theorem tlookup_tset_self {t : Table} {k : String} (n : SNode)
    (h : (tlookup t k).isSome = true) :
    tlookup (tset t k n) k = some n := by
  induction t with
  | nil => simp [tlookup] at h
  | cons p t ih =>
    obtain ⟨k2, n2⟩ := p
    rw [tlookup_cons] at h
    rw [tset_cons]
    by_cases h2 : k2 = k
    · rw [if_pos h2, tlookup_cons, if_pos h2]
    · rw [if_neg h2] at h
      rw [if_neg h2, tlookup_cons, if_neg h2]
      exact ih h

theorem tlookup_tset_other {t : Table} {k k2 : String} (n : SNode)
    (h : k2 ≠ k) : tlookup (tset t k n) k2 = tlookup t k2 := by
  induction t with
  | nil => simp [tset]
  | cons p t ih =>
    obtain ⟨k3, n3⟩ := p
    rw [tset_cons]
    by_cases h3 : k3 = k
    · rw [if_pos h3, tlookup_cons, tlookup_cons]
      rw [if_neg (h3 ▸ fun hh => h hh.symm), if_neg (h3 ▸ fun hh => h hh.symm)]
    · rw [if_neg h3, tlookup_cons, tlookup_cons]
      by_cases h4 : k3 = k2
      · rw [if_pos h4, if_pos h4]
      · rw [if_neg h4, if_neg h4]
        exact ih

theorem keysOf_tset (t : Table) (k : String) (n : SNode) :
    keysOf (tset t k n) = keysOf t := by
  induction t with
  | nil => simp [tset]
  | cons p t ih =>
    obtain ⟨k2, n2⟩ := p
    rw [tset_cons]
    by_cases h : k2 = k
    · rw [if_pos h]
      simp [keysOf]
    · rw [if_neg h]
      simp only [keysOf, List.map_cons] at ih ⊢
      rw [ih]

theorem length_tset (t : Table) (k : String) (n : SNode) :
    (tset t k n).length = t.length := by
  have h := congrArg List.length (keysOf_tset t k n)
  simpa [keysOf] using h

theorem tset_self {t : Table} {k : String} {m : SNode}
    (h : tlookup t k = some m) : tset t k m = t := by
  induction t with
  | nil => rfl
  | cons p t ih =>
    obtain ⟨k2, n2⟩ := p
    rw [tlookup_cons] at h
    rw [tset_cons]
    by_cases h2 : k2 = k
    · rw [if_pos h2] at h ⊢
      obtain rfl : n2 = m := Option.some.inj h
      rfl
    · rw [if_neg h2] at h ⊢
      rw [ih h]

theorem mem_tset {t : Table} {k : String} {n : SNode} {p : String × SNode}
    (h : p ∈ tset t k n) : p ∈ t ∨ p = (k, n) := by
  induction t with
  | nil => simp [tset] at h
  | cons q t ih =>
    obtain ⟨k2, n2⟩ := q
    rw [tset_cons] at h
    by_cases h2 : k2 = k
    · rw [if_pos h2] at h
      rcases List.mem_cons.mp h with h | h
      · exact Or.inr (by rw [h, h2])
      · exact Or.inl (List.mem_cons_of_mem _ h)
    · rw [if_neg h2] at h
      rcases List.mem_cons.mp h with h | h
      · exact Or.inl (h ▸ List.mem_cons_self _ _)
      · rcases ih h with h3 | h3
        · exact Or.inl (List.mem_cons_of_mem _ h3)
        · exact Or.inr h3

theorem mergeNode_fresh (m : SNode) (s : GameState) :
    mergeNode m (freshNode s) = m := by
  cases m
  simp [mergeNode, freshNode]

theorem nkey_fresh (s : GameState) : nkey (freshNode s) = node_key s := rfl

theorem add_fresh_present {t : Table} {s : GameState}
    (h : (tlookup t (node_key s)).isSome = true) :
    (add_node t (freshNode s)).1 = t := by
  obtain ⟨m, hm⟩ := Option.isSome_iff_exists.mp h
  unfold add_node
  rw [nkey_fresh, hm]
  simp only [mergeNode_fresh]
  exact tset_self hm

theorem add_fresh_absent {t : Table} {s : GameState}
    (h : tlookup t (node_key s) = none) :
    (add_node t (freshNode s)).1 = t ++ [(node_key s, freshNode s)] := by
  unfold add_node
  rw [nkey_fresh, h]

/-! ## The successor-insertion fold of expand_single_node -/

/-- The foldl of expand_single_node that routes every produced successor
state through add_node, written over the successor states. -/
def addAllFresh (t : Table) (ss : List GameState) : Table :=
  ss.foldl (fun acc s => (add_node acc (freshNode s)).1) t

theorem addAllFresh_nil (t : Table) : addAllFresh t [] = t := rfl

theorem addAllFresh_cons (t : Table) (s : GameState) (ss : List GameState) :
    addAllFresh t (s :: ss) = addAllFresh (add_node t (freshNode s)).1 ss := rfl

/-- The node written at the expanded key. -/
def expandedNode (n : SNode) : SNode :=
  { state := n.state, is_expanded := true, succ := smapOf n.state }

theorem expand_eq {t : Table} {k : String} {n : SNode}
    (h : tlookup t k = some n) :
    expand_single_node t k =
      (addAllFresh (tset t k (expandedNode n))
        ((all_legal_moves n.state).map (move_body n.state)),
       !(all_legal_moves n.state).isEmpty) := by
  unfold expand_single_node
  rw [h]
  simp only [addAllFresh, List.foldl_map, expandedNode]

theorem lookup_none_of_not_isSome {t : Table} {k : String}
    (h : ¬ (tlookup t k).isSome = true) : tlookup t k = none := by
  cases hx : tlookup t k
  · rfl
  · rw [hx] at h
    simp at h

theorem add_fresh_lookup_isSome (t : Table) (s : GameState) :
    (tlookup (add_node t (freshNode s)).1 (node_key s)).isSome = true := by
  by_cases h2 : (tlookup t (node_key s)).isSome = true
  · rw [add_fresh_present h2]
    exact h2
  · have h3 := lookup_none_of_not_isSome h2
    rw [add_fresh_absent h3, tlookup_append_none _ h3, tlookup_single, if_pos rfl]
    rfl

theorem addAllFresh_lookup_some (ss : List GameState) :
    ∀ (t : Table) (k : String), (tlookup t k).isSome = true →
      tlookup (addAllFresh t ss) k = tlookup t k := by
  induction ss with
  | nil => intro t k _; rfl
  | cons s ss ih =>
    intro t k h
    rw [addAllFresh_cons]
    by_cases h2 : (tlookup t (node_key s)).isSome = true
    · rw [add_fresh_present h2]
      exact ih t k h
    · have h3 := lookup_none_of_not_isSome h2
      rw [add_fresh_absent h3]
      have h4 : tlookup (t ++ [(node_key s, freshNode s)]) k = tlookup t k := by
        obtain ⟨m, hm⟩ := Option.isSome_iff_exists.mp h
        rw [tlookup_append_some _ hm, hm]
      rw [ih _ k (by rw [h4]; exact h), h4]

theorem addAllFresh_isSome_mono (ss : List GameState) {t : Table} {k : String}
    (h : (tlookup t k).isSome = true) :
    (tlookup (addAllFresh t ss) k).isSome = true := by
  rw [addAllFresh_lookup_some ss t k h]
  exact h

theorem addAllFresh_lookup_none (ss : List GameState) :
    ∀ (t : Table) (k : String), tlookup t k = none →
      tlookup (addAllFresh t ss) k = none ∨
      ∃ s2 ∈ ss, k = node_key s2 ∧
        tlookup (addAllFresh t ss) k = some (freshNode s2) := by
  induction ss with
  | nil => intro t k h; exact Or.inl h
  | cons s ss ih =>
    intro t k h
    rw [addAllFresh_cons]
    by_cases h2 : (tlookup t (node_key s)).isSome = true
    · rw [add_fresh_present h2]
      rcases ih t k h with h3 | ⟨s2, hs2, hk, hl⟩
      · exact Or.inl h3
      · exact Or.inr ⟨s2, List.mem_cons_of_mem _ hs2, hk, hl⟩
    · have h3 := lookup_none_of_not_isSome h2
      rw [add_fresh_absent h3]
      by_cases h4 : k = node_key s
      · have h5 : tlookup (t ++ [(node_key s, freshNode s)]) k = some (freshNode s) := by
          rw [h4, tlookup_append_none _ h3, tlookup_single, if_pos rfl]
        rw [addAllFresh_lookup_some ss _ k (by rw [h5]; rfl), h5]
        exact Or.inr ⟨s, List.mem_cons_self _ _, h4, rfl⟩
      · have h5 : tlookup (t ++ [(node_key s, freshNode s)]) k = none := by
          rw [tlookup_append_none _ h, tlookup_single,
            if_neg (fun hh => h4 hh.symm)]
        rcases ih _ k h5 with h6 | ⟨s2, hs2, hk, hl⟩
        · exact Or.inl h6
        · exact Or.inr ⟨s2, List.mem_cons_of_mem _ hs2, hk, hl⟩

theorem addAllFresh_produced (ss : List GameState) :
    ∀ (t : Table), ∀ s2 ∈ ss,
      (tlookup (addAllFresh t ss) (node_key s2)).isSome = true := by
  induction ss with
  | nil => intro t s2 h; simp at h
  | cons s ss ih =>
    intro t s2 hs2
    rw [addAllFresh_cons]
    rcases List.mem_cons.mp hs2 with rfl | hs2
    · exact addAllFresh_isSome_mono ss (add_fresh_lookup_isSome t s2)
    · exact ih _ s2 hs2

theorem addAllFresh_length_le (ss : List GameState) :
    ∀ (t : Table), t.length ≤ (addAllFresh t ss).length := by
  induction ss with
  | nil => intro t; exact Nat.le_refl _
  | cons s ss ih =>
    intro t
    rw [addAllFresh_cons]
    refine Nat.le_trans ?_ (ih _)
    by_cases h2 : (tlookup t (node_key s)).isSome = true
    · rw [add_fresh_present h2]
    · rw [add_fresh_absent (lookup_none_of_not_isSome h2)]
      simp

theorem addAllFresh_eq_or_lt (ss : List GameState) :
    ∀ (t : Table), addAllFresh t ss = t ∨
      t.length < (addAllFresh t ss).length := by
  induction ss with
  | nil => intro t; exact Or.inl rfl
  | cons s ss ih =>
    intro t
    rw [addAllFresh_cons]
    by_cases h2 : (tlookup t (node_key s)).isSome = true
    · rw [add_fresh_present h2]
      exact ih t
    · right
      have h3 := lookup_none_of_not_isSome h2
      rw [add_fresh_absent h3]
      have h4 := addAllFresh_length_le ss (t ++ [(node_key s, freshNode s)])
      have h5 : (t ++ [(node_key s, freshNode s)]).length = t.length + 1 := by simp
      rw [h5] at h4
      exact Nat.lt_of_lt_of_le (Nat.lt_succ_self _) h4

theorem keysOf_append (t1 t2 : Table) :
    keysOf (t1 ++ t2) = keysOf t1 ++ keysOf t2 := List.map_append _ _ _

theorem addAllFresh_nodup (ss : List GameState) :
    ∀ (t : Table), (keysOf t).Nodup → (keysOf (addAllFresh t ss)).Nodup := by
  induction ss with
  | nil => intro t h; exact h
  | cons s ss ih =>
    intro t h
    rw [addAllFresh_cons]
    by_cases h2 : (tlookup t (node_key s)).isSome = true
    · rw [add_fresh_present h2]
      exact ih t h
    · have h3 := lookup_none_of_not_isSome h2
      rw [add_fresh_absent h3]
      refine ih _ ?_
      rw [keysOf_append]
      simp only [List.nodup_append, keysOf, List.map_cons, List.map_nil]
      refine ⟨h, List.nodup_singleton _, ?_⟩
      intro a ha hb
      simp only [List.mem_singleton] at hb
      subst hb
      have h6 : (tlookup t (node_key s)).isSome = true :=
        (tlookup_isSome_iff_mem t _).mpr ha
      rw [h3] at h6
      simp at h6

theorem addAllFresh_mem (ss : List GameState) :
    ∀ (t : Table) (p : String × SNode), p ∈ addAllFresh t ss →
      p ∈ t ∨ ∃ s2 ∈ ss, p = (node_key s2, freshNode s2) := by
  induction ss with
  | nil => intro t p h; exact Or.inl h
  | cons s ss ih =>
    intro t p h
    rw [addAllFresh_cons] at h
    by_cases h2 : (tlookup t (node_key s)).isSome = true
    · rw [add_fresh_present h2] at h
      rcases ih t p h with h3 | ⟨s2, hs2, hp⟩
      · exact Or.inl h3
      · exact Or.inr ⟨s2, List.mem_cons_of_mem _ hs2, hp⟩
    · have h3 := lookup_none_of_not_isSome h2
      rw [add_fresh_absent h3] at h
      rcases ih _ p h with h4 | ⟨s2, hs2, hp⟩
      · rcases List.mem_append.mp h4 with h5 | h5
        · exact Or.inl h5
        · simp only [List.mem_singleton] at h5
          exact Or.inr ⟨s, List.mem_cons_self _ _, h5⟩
      · exact Or.inr ⟨s2, List.mem_cons_of_mem _ hs2, hp⟩

theorem addAllFresh_keys_sub (ss : List GameState) (t : Table) (k : String)
    (h : k ∈ keysOf (addAllFresh t ss)) :
    k ∈ keysOf t ∨ ∃ s2 ∈ ss, k = node_key s2 := by
  simp only [keysOf, List.mem_map] at h
  obtain ⟨p, hp, hk⟩ := h
  rcases addAllFresh_mem ss t p hp with h2 | ⟨s2, hs2, hp2⟩
  · exact Or.inl (by simp only [keysOf, List.mem_map]; exact ⟨p, h2, hk⟩)
  · refine Or.inr ⟨s2, hs2, ?_⟩
    rw [← hk, hp2]

/-! ## Facts about expand_single_node -/

theorem mem_all_legal {s : GameState} {m : Coord} :
    m ∈ all_legal_moves s ↔ is_legal_move s m = true := by
  unfold all_legal_moves
  rw [List.mem_filter]
  simp [allCoords_mem]

theorem expand_lookup_self {t : Table} {k : String} {n : SNode}
    (h : tlookup t k = some n) :
    tlookup (expand_single_node t k).1 k = some (expandedNode n) := by
  rw [expand_eq h]
  have h1 : (tlookup t k).isSome = true := by rw [h]; rfl
  have h2 := tlookup_tset_self (t := t) (k := k) (expandedNode n) h1
  rw [addAllFresh_lookup_some _ _ k (by rw [h2]; rfl)]
  exact h2

theorem expand_lookup_other {t : Table} {k k2 : String} {n m : SNode}
    (h : tlookup t k = some n) (hne : k2 ≠ k) (h2 : tlookup t k2 = some m) :
    tlookup (expand_single_node t k).1 k2 = some m := by
  rw [expand_eq h]
  have h3 : tlookup (tset t k (expandedNode n)) k2 = some m := by
    rw [tlookup_tset_other _ hne]
    exact h2
  rw [addAllFresh_lookup_some _ _ k2 (by rw [h3]; rfl)]
  exact h3

theorem expand_lookup_new {t : Table} {k k2 : String} {n : SNode}
    (h : tlookup t k = some n) (hne : k2 ≠ k) (h2 : tlookup t k2 = none) :
    tlookup (expand_single_node t k).1 k2 = none ∨
    ∃ m ∈ all_legal_moves n.state, k2 = node_key (move_body n.state m) ∧
      tlookup (expand_single_node t k).1 k2
        = some (freshNode (move_body n.state m)) := by
  rw [expand_eq h]
  have h3 : tlookup (tset t k (expandedNode n)) k2 = none := by
    rw [tlookup_tset_other _ hne]
    exact h2
  rcases addAllFresh_lookup_none _ _ k2 h3 with h4 | ⟨s2, hs2, hk, hl⟩
  · exact Or.inl h4
  · obtain ⟨m, hm, rfl⟩ := List.mem_map.mp hs2
    exact Or.inr ⟨m, hm, hk, hl⟩

theorem expand_produced {t : Table} {k : String} {n : SNode}
    (h : tlookup t k = some n) {m : Coord} (hm : m ∈ all_legal_moves n.state) :
    (tlookup (expand_single_node t k).1 (node_key (move_body n.state m))).isSome
      = true := by
  rw [expand_eq h]
  exact addAllFresh_produced _ _ _ (List.mem_map_of_mem _ hm)

theorem expand_isSome_mono {t : Table} {k k2 : String} {n : SNode}
    (h : tlookup t k = some n) (h2 : (tlookup t k2).isSome = true) :
    (tlookup (expand_single_node t k).1 k2).isSome = true := by
  by_cases hne : k2 = k
  · subst hne
    rw [expand_lookup_self h]
    rfl
  · obtain ⟨m, hm⟩ := Option.isSome_iff_exists.mp h2
    rw [expand_lookup_other h hne hm]
    rfl

theorem expand_length_le {t : Table} {k : String} {n : SNode}
    (h : tlookup t k = some n) :
    t.length ≤ (expand_single_node t k).1.length := by
  rw [expand_eq h]
  have h1 := addAllFresh_length_le ((all_legal_moves n.state).map (move_body n.state))
    (tset t k (expandedNode n))
  rw [length_tset] at h1
  exact h1

theorem expand_eq_or_lt {t : Table} {k : String} {n : SNode}
    (h : tlookup t k = some n) :
    (expand_single_node t k).1 = tset t k (expandedNode n) ∨
    t.length < (expand_single_node t k).1.length := by
  rw [expand_eq h]
  rcases addAllFresh_eq_or_lt ((all_legal_moves n.state).map (move_body n.state))
      (tset t k (expandedNode n)) with h1 | h1
  · exact Or.inl h1
  · rw [length_tset] at h1
    exact Or.inr h1

theorem expand_nodup {t : Table} {k : String} {n : SNode}
    (h : tlookup t k = some n) (hd : (keysOf t).Nodup) :
    (keysOf (expand_single_node t k).1).Nodup := by
  rw [expand_eq h]
  refine addAllFresh_nodup _ _ ?_
  rw [keysOf_tset]
  exact hd

theorem NodeOK_fresh {s : GameState} (hv : ValidState s) :
    NodeOK (node_key s) (freshNode s) :=
  ⟨hv, rfl, by simp [freshNode], fun _ => rfl⟩

theorem NodeOK_expandedNode {k : String} {n : SNode} (hOK : NodeOK k n) :
    NodeOK k (expandedNode n) :=
  ⟨hOK.1, hOK.2.1, fun _ => rfl, by simp [expandedNode]⟩

theorem expand_nodeOK {t : Table} {k : String} {n : SNode}
    (h : tlookup t k = some n) (hOK : ∀ p ∈ t, NodeOK p.1 p.2) :
    ∀ p ∈ (expand_single_node t k).1, NodeOK p.1 p.2 := by
  rw [expand_eq h]
  intro p hp
  have hnOK : NodeOK k n := hOK _ (tlookup_mem h)
  rcases addAllFresh_mem _ _ p hp with h2 | ⟨s2, hs2, rfl⟩
  · rcases mem_tset h2 with h3 | rfl
    · exact hOK _ h3
    · exact NodeOK_expandedNode hnOK
  · obtain ⟨m, hm, rfl⟩ := List.mem_map.mp hs2
    exact NodeOK_fresh (valid_step hnOK.1 (mem_all_legal.mp hm))

theorem mem_smapOf {s : GameState} {q : Coord × String} (h : q ∈ smapOf s) :
    ∃ m ∈ all_legal_moves s, q = (m, node_key (move_body s m)) := by
  unfold smapOf at h
  obtain ⟨m, hm, rfl⟩ := List.mem_map.mp h
  exact ⟨m, hm, rfl⟩

theorem expand_closed {t : Table} {k : String} {n : SNode}
    (h : tlookup t k = some n) (hc : ClosedT t) :
    ClosedT (expand_single_node t k).1 := by
  intro p hp q hq
  rw [expand_eq h] at hp ⊢
  rcases addAllFresh_mem _ _ p hp with h2 | ⟨s2, hs2, rfl⟩
  · rcases mem_tset h2 with h3 | rfl
    · have h4 := hc p h3 q hq
      refine addAllFresh_isSome_mono _ ?_
      by_cases hqk : q.2 = k
      · rw [hqk, tlookup_tset_self _ (by rw [h]; rfl)]
        rfl
      · rw [tlookup_tset_other _ hqk]
        exact h4
    · obtain ⟨m, hm, rfl⟩ := mem_smapOf (s := n.state) hq
      exact addAllFresh_produced _ _ _ (List.mem_map_of_mem _ hm)
  · simp [freshNode] at hq

/-- C5: the bounded expansion step always runs the inner step (so one step
can overshoot a budget, the check coming only afterwards), and it reports
more work exactly when the inner step reported work and, measured after
the step, neither the node budget nor the time budget is exceeded; the
signal is this boolean, the function has no error outcome. -/
theorem c5_bounded_step (n : Nat) (hn : 0 < n) (tl el : ℚ)
    (inner : Engine → Engine × Bool) (E : Engine) :
    (bounded_step n tl el inner E).1 = (inner E).1 ∧
    ((bounded_step n tl el inner E).2 = true ↔
      ((inner E).2 = true ∧ ¬ (inner E).1.table.length ≥ n ∧
        ¬ (tl ≠ 0 ∧ el ≥ tl))) := by
  unfold bounded_step
  refine ⟨rfl, ?_⟩
  simp [hn.ne', Bool.and_eq_true, not_or, Decidable.not_not]
  tauto

/-- Witness for C5 at a concrete node limit, inner step and engine. -/
theorem c5_bounded_step_witness :
    (bounded_step 1 0 0 (fun E => (E, true)) (init_engine starting_state)).1
      = ((fun E : Engine => (E, true)) (init_engine starting_state)).1 ∧
    ((bounded_step 1 0 0 (fun E => (E, true)) (init_engine starting_state)).2 = true ↔
      (((fun E : Engine => (E, true)) (init_engine starting_state)).2 = true ∧
        ¬ ((fun E : Engine => (E, true)) (init_engine starting_state)).1.table.length ≥ 1 ∧
        ¬ ((0 : ℚ) ≠ 0 ∧ (0 : ℚ) ≥ 0))) :=
  c5_bounded_step 1 (by decide) 0 0 (fun E => (E, true)) (init_engine starting_state)

theorem find?_smap_none {s : GameState} {m : Coord}
    (h : is_legal_move s m = false) :
    (smapOf s).find? (fun q => decide (q.1 = m)) = none := by
  rw [List.find?_eq_none]
  intro q hq
  obtain ⟨m2, hm2, rfl⟩ := mem_smapOf hq
  simp only [decide_eq_true_eq]
  intro hqm
  rw [hqm] at hm2
  rw [mem_all_legal.mp hm2] at h
  simp at h

/-! ## Facts about the one-step-all sweep -/

/-- The state wrapped by the table entry at key k, when present. -/
def stateAt (t : Table) (k : String) : Option GameState :=
  (tlookup t k).map SNode.state

/-- Whether the table entry at key k has at least one legal move, which is
what the flag of expand_single_node reports after expanding it. -/
def producesAt (t : Table) (k : String) : Bool :=
  match stateAt t k with
  | some s => !(all_legal_moves s).isEmpty
  | none => false

theorem expand_none {t : Table} {k : String} (h : tlookup t k = none) :
    expand_single_node t k = (t, false) := by
  unfold expand_single_node
  rw [h]

theorem expand_flag (t : Table) (k : String) :
    (expand_single_node t k).2 = producesAt t k := by
  cases hk : tlookup t k with
  | none => rw [expand_none hk]; simp [producesAt, stateAt, hk]
  | some n => rw [expand_eq hk]; simp [producesAt, stateAt, hk]

theorem producesAt_congr {t1 t2 : Table} {k : String}
    (h : stateAt t1 k = stateAt t2 k) : producesAt t1 k = producesAt t2 k := by
  unfold producesAt
  rw [h]

theorem expand_isExpandedAt_self {t : Table} {k : String} {n : SNode}
    (h : tlookup t k = some n) :
    isExpandedAt (expand_single_node t k).1 k = true := by
  unfold isExpandedAt
  rw [expand_lookup_self h]
  rfl

theorem expand_isExpandedAt_other (t : Table) (k : String) {k2 : String}
    (hne : k2 ≠ k) :
    isExpandedAt (expand_single_node t k).1 k2 = isExpandedAt t k2 := by
  cases hk : tlookup t k with
  | none => rw [expand_none hk]
  | some n =>
    cases h2 : tlookup t k2 with
    | some m =>
      unfold isExpandedAt
      rw [expand_lookup_other hk hne h2, h2]
    | none =>
      rcases expand_lookup_new hk hne h2 with h3 | ⟨m2, _, _, h3⟩ <;>
        (unfold isExpandedAt; rw [h3, h2]; try rfl)

theorem expand_stateAt (t : Table) (k : String) {k2 : String}
    (h2 : (tlookup t k2).isSome = true) :
    stateAt (expand_single_node t k).1 k2 = stateAt t k2 := by
  cases hk : tlookup t k with
  | none => rw [expand_none hk]
  | some n =>
    by_cases hne : k2 = k
    · subst hne
      unfold stateAt
      rw [expand_lookup_self hk, hk]
      rfl
    · obtain ⟨m, hm⟩ := Option.isSome_iff_exists.mp h2
      unfold stateAt
      rw [expand_lookup_other hk hne hm, hm]

theorem expand_mem_keys (t : Table) (k : String) {k2 : String}
    (h2 : k2 ∈ keysOf t) : k2 ∈ keysOf (expand_single_node t k).1 := by
  cases hk : tlookup t k with
  | none => rw [expand_none hk]; exact h2
  | some n =>
    rw [← tlookup_isSome_iff_mem] at h2 ⊢
    exact expand_isSome_mono hk h2

theorem expand_nodeOK2 (t : Table) (k : String)
    (hOK : ∀ p ∈ t, NodeOK p.1 p.2) :
    ∀ p ∈ (expand_single_node t k).1, NodeOK p.1 p.2 := by
  cases hk : tlookup t k with
  | none => rw [expand_none hk]; exact hOK
  | some n => exact expand_nodeOK hk hOK

theorem expand_nodup2 (t : Table) (k : String) (hd : (keysOf t).Nodup) :
    (keysOf (expand_single_node t k).1).Nodup := by
  cases hk : tlookup t k with
  | none => rw [expand_none hk]; exact hd
  | some n => exact expand_nodup hk hd

theorem expand_length_le2 (t : Table) (k : String) :
    t.length ≤ (expand_single_node t k).1.length := by
  cases hk : tlookup t k with
  | none => rw [expand_none hk]
  | some n => exact expand_length_le hk

theorem expand_closed2 (t : Table) (k : String) (hc : ClosedT t) :
    ClosedT (expand_single_node t k).1 := by
  cases hk : tlookup t k with
  | none => rw [expand_none hk]; exact hc
  | some n => exact expand_closed hk hc

/-- The table produced by expanding the listed keys in order. -/
def expandTables (t : Table) (ks : List String) : Table :=
  ks.foldl (fun acc k => (expand_single_node acc k).1) t

/-- The snapshot of unexpanded node keys that the sweep iterates over. -/
def unexpKeys (E : Engine) : List String :=
  (E.table.filter fun p => !p.2.is_expanded).map Prod.fst

theorem one_step_eq (E : Engine) :
    one_step E =
      ({ table := ((unexpKeys E).foldl
          (fun acc k =>
            ((expand_single_node acc.1 k).1, (expand_single_node acc.1 k).2 || acc.2))
          (E.table, false)).1,
         current := E.current },
       ((unexpKeys E).foldl
          (fun acc k =>
            ((expand_single_node acc.1 k).1, (expand_single_node acc.1 k).2 || acc.2))
          (E.table, false)).2) := rfl

theorem any_congr {l : List String} {f g : String → Bool}
    (h : ∀ x ∈ l, f x = g x) : l.any f = l.any g := by
  induction l with
  | nil => rfl
  | cons x l ih =>
    simp only [List.any_cons]
    rw [h x (List.mem_cons_self _ _), ih fun y hy => h y (List.mem_cons_of_mem _ hy)]

theorem expandSpec (ks : List String) :
    ∀ (t : Table) (b : Bool), (∀ k ∈ ks, k ∈ keysOf t) →
      (ks.foldl
          (fun acc k =>
            ((expand_single_node acc.1 k).1, (expand_single_node acc.1 k).2 || acc.2))
          (t, b)).1 = expandTables t ks ∧
      (∀ k ∈ ks, isExpandedAt (expandTables t ks) k = true) ∧
      (∀ k2, k2 ∉ ks → isExpandedAt (expandTables t ks) k2 = isExpandedAt t k2) ∧
      (∀ k2, (tlookup t k2).isSome = true →
        stateAt (expandTables t ks) k2 = stateAt t k2) ∧
      (∀ k2 ∈ keysOf t, k2 ∈ keysOf (expandTables t ks)) ∧
      (ks.foldl
          (fun acc k =>
            ((expand_single_node acc.1 k).1, (expand_single_node acc.1 k).2 || acc.2))
          (t, b)).2 = (b || ks.any fun k => producesAt t k) := by
  induction ks with
  | nil =>
    intro t b _
    refine ⟨rfl, by simp, fun k2 _ => rfl, fun k2 _ => rfl, fun k2 h => h, by simp⟩
  | cons k ks ih =>
    intro t b hks
    have hkt : k ∈ keysOf t := hks k (List.mem_cons_self _ _)
    obtain ⟨n, hn⟩ := Option.isSome_iff_exists.mp ((tlookup_isSome_iff_mem t k).mpr hkt)
    have hks2 : ∀ k2 ∈ ks, k2 ∈ keysOf (expand_single_node t k).1 :=
      fun k2 h2 => expand_mem_keys t k (hks k2 (List.mem_cons_of_mem _ h2))
    obtain ⟨hfst, hA, hB, hC, hD, hFl⟩ :=
      ih (expand_single_node t k).1 ((expand_single_node t k).2 || b) hks2
    have hTeq : expandTables t (k :: ks) = expandTables (expand_single_node t k).1 ks := rfl
    refine ⟨?_, ?_, ?_, ?_, ?_, ?_⟩
    · simpa [List.foldl_cons, hTeq] using hfst
    · intro k0 hk0
      rcases List.mem_cons.mp hk0 with rfl | hk0
      · rw [hTeq]
        by_cases hmem : k0 ∈ ks
        · exact hA k0 hmem
        · rw [hB k0 hmem]
          exact expand_isExpandedAt_self hn
      · rw [hTeq]
        exact hA k0 hk0
    · intro k2 hk2
      have hne : k2 ≠ k := fun hh => hk2 (hh ▸ List.mem_cons_self _ _)
      have hnmem : k2 ∉ ks := fun hh => hk2 (List.mem_cons_of_mem _ hh)
      rw [hTeq, hB k2 hnmem, expand_isExpandedAt_other t k hne]
    · intro k2 h2
      have h3 : (tlookup (expand_single_node t k).1 k2).isSome = true :=
        expand_isSome_mono hn h2
      rw [hTeq, hC k2 h3, expand_stateAt t k h2]
    · intro k2 h2
      rw [hTeq]
      exact hD k2 (expand_mem_keys t k h2)
    · have hflag : (expand_single_node t k).2 = producesAt t k := expand_flag t k
      have hany : (ks.any fun k2 => producesAt (expand_single_node t k).1 k2)
          = ks.any fun k2 => producesAt t k2 := by
        refine any_congr fun k2 h2 => ?_
        have h3 : (tlookup t k2).isSome = true :=
          (tlookup_isSome_iff_mem t k2).mpr (hks k2 (List.mem_cons_of_mem _ h2))
        exact producesAt_congr (expand_stateAt t k h3)
      simp only [List.foldl_cons] at hFl ⊢
      rw [hFl, hany, hflag, List.any_cons]
      cases b <;> cases producesAt t k <;> simp

theorem unexpKeys_sub (E : Engine) : ∀ k ∈ unexpKeys E, k ∈ keysOf E.table := by
  intro k hk
  simp only [unexpKeys, List.mem_map] at hk
  obtain ⟨p, hp, rfl⟩ := hk
  exact List.mem_map_of_mem _ (List.mem_of_mem_filter hp)

theorem fold_fst (ks : List String) :
    ∀ (t : Table) (b : Bool),
      (ks.foldl
        (fun acc k =>
          ((expand_single_node acc.1 k).1, (expand_single_node acc.1 k).2 || acc.2))
        (t, b)).1 = expandTables t ks := by
  induction ks with
  | nil => intro t b; rfl
  | cons k ks ih => intro t b; exact ih _ _

theorem one_step_table (E : Engine) :
    (one_step E).1.table = expandTables E.table (unexpKeys E) := by
  rw [one_step_eq]
  exact fold_fst _ _ _

theorem expandTables_nodeOK (ks : List String) :
    ∀ (t : Table), (∀ p ∈ t, NodeOK p.1 p.2) →
      ∀ p ∈ expandTables t ks, NodeOK p.1 p.2 := by
  induction ks with
  | nil => intro t h; exact h
  | cons k ks ih => intro t h; exact ih _ (expand_nodeOK2 t k h)

theorem expandTables_nodup (ks : List String) :
    ∀ (t : Table), (keysOf t).Nodup → (keysOf (expandTables t ks)).Nodup := by
  induction ks with
  | nil => intro t h; exact h
  | cons k ks ih => intro t h; exact ih _ (expand_nodup2 t k h)

theorem expandTables_length_le (ks : List String) :
    ∀ (t : Table), t.length ≤ (expandTables t ks).length := by
  induction ks with
  | nil => intro t; exact Nat.le_refl _
  | cons k ks ih =>
    intro t
    exact Nat.le_trans (expand_length_le2 t k) (ih _)

theorem one_step_WFT (E : Engine) (hw : WFT E.table) : WFT (one_step E).1.table := by
  rw [one_step_table]
  exact ⟨expandTables_nodup _ _ hw.1, expandTables_nodeOK _ _ hw.2⟩

/-- C7 amended: one sweep expands every node unexpanded at the start of
the call and leaves the expansion status of every other key unchanged, so
successor nodes produced during the call stay unexpanded; the returned
flag is true exactly when some node of the snapshot has at least one legal
move, not when some node was expanded (a terminal node is expanded with
the flag staying false, the counterexample). -/
theorem c7_one_step_amended (E : Engine) :
    (∀ k ∈ unexpKeys E, isExpandedAt (one_step E).1.table k = true) ∧
    (∀ k, k ∉ unexpKeys E →
      isExpandedAt (one_step E).1.table k = isExpandedAt E.table k) ∧
    ((one_step E).2 = true ↔ ∃ k ∈ unexpKeys E, producesAt E.table k = true) := by
  obtain ⟨hfst, hA, hB, _, _, hFl⟩ :=
    expandSpec (unexpKeys E) E.table false (unexpKeys_sub E)
  have htab := one_step_table E
  have hsnd : (one_step E).2 = ((unexpKeys E).foldl
      (fun acc k =>
        ((expand_single_node acc.1 k).1, (expand_single_node acc.1 k).2 || acc.2))
      (E.table, false)).2 := rfl
  refine ⟨?_, ?_, ?_⟩
  · intro k hk
    rw [htab]
    exact hA k hk
  · intro k hk
    rw [htab]
    exact hB k hk
  · rw [hsnd, hFl]
    simp [List.any_eq_true]

/-! ## Termination of the full expansion -/

theorem tlookup_of_mem_nodup {t : Table} {k : String} {n : SNode}
    (hd : (keysOf t).Nodup) (h : (k, n) ∈ t) : tlookup t k = some n := by
  induction t with
  | nil => simp at h
  | cons p t ih =>
    obtain ⟨k2, n2⟩ := p
    simp only [keysOf, List.map_cons, List.nodup_cons] at hd
    rcases List.mem_cons.mp h with h2 | h2
    · obtain ⟨rfl, rfl⟩ := Prod.mk.inj h2.symm
      rw [tlookup_cons, if_pos rfl]
    · have hkin : k ∈ List.map Prod.fst t := by
        simpa using List.mem_map_of_mem Prod.fst h2
      have hne : k2 ≠ k := fun he => hd.1 (by rw [he]; exact hkin)
      rw [tlookup_cons, if_neg hne]
      exact ih hd.2 h2

theorem allExpanded_iff (t : Table) :
    allExpanded t = true ↔ ∀ p ∈ t, p.2.is_expanded = true := by
  unfold allExpanded
  rw [List.all_eq_true]

theorem keys_sat_of_len {t t2 : Table}
    (hd : (keysOf t).Nodup) (hd2 : (keysOf t2).Nodup)
    (hsub : ∀ k ∈ keysOf t, k ∈ keysOf t2)
    (hlen : t2.length = t.length) : ∀ k ∈ keysOf t2, k ∈ keysOf t := by
  have hfin : (keysOf t).toFinset ⊆ (keysOf t2).toFinset := by
    intro k hk
    rw [List.mem_toFinset] at hk ⊢
    exact hsub k hk
  have hlk : (keysOf t).length = t.length := List.length_map _ _
  have hlk2 : (keysOf t2).length = t2.length := List.length_map _ _
  have hcard : (keysOf t2).toFinset.card ≤ (keysOf t).toFinset.card := by
    rw [List.toFinset_card_of_nodup hd, List.toFinset_card_of_nodup hd2]
    rw [hlk, hlk2, hlen]
  have := Finset.eq_of_subset_of_card_le hfin hcard
  intro k hk
  rw [← List.mem_toFinset, ← this, List.mem_toFinset] at hk
  exact hk

theorem expanded_of_not_unexp {E : Engine} {k : String}
    (hk : k ∈ keysOf E.table)
    (hnu : k ∉ unexpKeys E) : isExpandedAt E.table k = true := by
  obtain ⟨m, hm⟩ :=
    Option.isSome_iff_exists.mp ((tlookup_isSome_iff_mem _ _).mpr hk)
  unfold isExpandedAt
  rw [hm]
  by_contra hme
  simp only [Bool.not_eq_true] at hme
  refine hnu ?_
  unfold unexpKeys
  refine List.mem_map_of_mem _ (List.mem_filter.mpr ⟨tlookup_mem hm, ?_⟩)
  rw [hme]
  rfl

theorem one_step_length_le (E : Engine) :
    E.table.length ≤ (one_step E).1.table.length := by
  rw [one_step_table]
  exact expandTables_length_le _ _

theorem one_step_progress (E : Engine) (hw : WFT E.table)
    (hlen : (one_step E).1.table.length = E.table.length) :
    allExpanded (one_step E).1.table = true := by
  obtain ⟨_, hA, hB, _, hD, _⟩ :=
    expandSpec (unexpKeys E) E.table false (unexpKeys_sub E)
  have htab := one_step_table E
  have hd2 : (keysOf (one_step E).1.table).Nodup := (one_step_WFT E hw).1
  rw [allExpanded_iff]
  intro p hp
  have hpk : tlookup (one_step E).1.table p.1 = some p.2 := by
    refine tlookup_of_mem_nodup hd2 ?_
    obtain ⟨k0, n0⟩ := p
    exact hp
  have hexp : isExpandedAt (one_step E).1.table p.1 = true → p.2.is_expanded = true := by
    intro h
    unfold isExpandedAt at h
    rw [hpk] at h
    exact h
  refine hexp ?_
  by_cases hmem : p.1 ∈ unexpKeys E
  · rw [htab]
    exact hA _ hmem
  · -- the key is old: by the length argument it was present before the call
    have hkeys : p.1 ∈ keysOf E.table := by
      refine keys_sat_of_len hw.1 hd2 ?_ ?_ p.1 ?_
      · intro k hk
        rw [htab]
        exact hD k hk
      · exact hlen
      · exact List.mem_map_of_mem _ hp
    rw [htab, hB _ hmem]
    exact expanded_of_not_unexp hkeys hmem

/-- The two player marks as cells, indexed for the key-space bound. -/
def cellOfFin : Fin 3 → Option Nat :=
  fun i => if i = 1 then some 1 else if i = 2 then some 2 else none

def finOfCell : Option Nat → Fin 3 :=
  fun c => if c = some 1 then 1 else if c = some 2 then 2 else 0

/-- Every canonical key of a valid board, as a finite set bounding the
size any well-formed table can reach. -/
def validKeys : Finset String :=
  Finset.image
    (fun f : Coord → Fin 3 =>
      node_key { board := fun c => cellOfFin (f c), active_player := none })
    Finset.univ

theorem key_mem_validKeys {s : GameState} (hv : ValidState s) :
    node_key s ∈ validKeys := by
  refine Finset.mem_image.mpr ⟨fun c => finOfCell (s.board c), Finset.mem_univ _, ?_⟩
  unfold node_key
  refine congrArg String.mk (List.map_congr_left fun c _ => ?_)
  show player_symbol (cellOfFin (finOfCell (s.board c))) = player_symbol (s.board c)
  rcases hv.1 c with h | h | h <;> rw [h] <;> rfl

def keyBound : Nat := validKeys.card

theorem table_length_le_bound {t : Table} (hw : WFT t) : t.length ≤ keyBound := by
  have hsub : (keysOf t).toFinset ⊆ validKeys := by
    intro k hk
    rw [List.mem_toFinset] at hk
    obtain ⟨n, hn⟩ :=
      Option.isSome_iff_exists.mp ((tlookup_isSome_iff_mem _ _).mpr hk)
    have hOK := hw.2 _ (tlookup_mem hn)
    have h21 : node_key n.state = k := hOK.2.1
    rw [← h21]
    exact key_mem_validKeys hOK.1
  have h1 : t.length = (keysOf t).toFinset.card := by
    rw [List.toFinset_card_of_nodup hw.1]
    simp [keysOf]
  rw [h1]
  exact Finset.card_le_card hsub

theorem full_expand_of_done {fuel : Nat} {E : Engine}
    (h : allExpanded E.table = true) : full_expand fuel E = E := by
  cases fuel with
  | zero => rfl
  | succ n =>
    unfold full_expand
    rw [if_pos h]

theorem full_expand_done (fuel : Nat) :
    ∀ (E : Engine), WFT E.table → keyBound + 1 ≤ fuel + E.table.length →
      allExpanded (full_expand fuel E).table = true := by
  induction fuel with
  | zero =>
    intro E hw hle
    have := table_length_le_bound hw
    omega
  | succ fuel ih =>
    intro E hw hle
    by_cases hdone : allExpanded E.table = true
    · rw [full_expand_of_done hdone]
      exact hdone
    · unfold full_expand
      rw [if_neg hdone]
      have hw2 : WFT (one_step E).1.table := one_step_WFT E hw
      by_cases hlen : (one_step E).1.table.length = E.table.length
      · rw [full_expand_of_done (one_step_progress E hw hlen)]
        exact one_step_progress E hw hlen
      · have hgt : E.table.length < (one_step E).1.table.length :=
          Nat.lt_of_le_of_ne (one_step_length_le E) (fun hh => hlen hh.symm)
        exact ih _ hw2 (by omega)

/-- C8: with the one-step-all sweep inside, the full expansion control
reaches, within a number of sweeps bounded by the finite key space of the
game, a table in which every resident node is expanded; this is the fixed
point at which the unbounded source loop stops, so the loop terminates. -/
theorem c8_full_expansion_terminates (E : Engine) (hw : WFT E.table) :
    allExpanded (full_expand (keyBound + 1) E).table = true := by
  refine full_expand_done (keyBound + 1) E hw ?_
  omega

/-- Witness for C8 at the initial engine of the starting state. -/
theorem c8_full_expansion_terminates_witness :
    allExpanded (full_expand (keyBound + 1) (init_engine starting_state)).table
      = true :=
  c8_full_expansion_terminates (init_engine starting_state) (by decide)

/-- The engine after the opening move on cell (0, 0): one unexpanded node. -/
def engineAfterOpening : Engine := init_engine (move_body starting_state (0, 0))

/-! ## Reachability and the pruning hull -/

/-- Reachability along recorded successor-key edges, the relation whose
transitive hull the pruning loop computes. -/
def Reaches (t : Table) (a b : String) : Prop :=
  Relation.ReflTransGen (fun x y => y ∈ succKeysAt t x) a b

def keysFinset (t : Table) : Finset String := (keysOf t).toFinset

theorem mem_keysFinset {t : Table} {k : String} :
    k ∈ keysFinset t ↔ (tlookup t k).isSome = true := by
  unfold keysFinset
  rw [List.mem_toFinset]
  exact (tlookup_isSome_iff_mem t k).symm

theorem reachStep_subset (t : Table) (s : Finset String) : s ⊆ reachStep t s :=
  Finset.subset_union_left

theorem iterate_subset_succ (t : Table) (s : Finset String) (n : Nat) :
    (reachStep t)^[n] s ⊆ (reachStep t)^[n + 1] s := by
  rw [Function.iterate_succ_apply']
  exact reachStep_subset t _

theorem subset_iterate (t : Table) (s : Finset String) (n : Nat) :
    s ⊆ (reachStep t)^[n] s := by
  induction n with
  | zero => exact Finset.Subset.refl s
  | succ n ih => exact Finset.Subset.trans ih (iterate_subset_succ t s n)

theorem succKeys_mem_keys {t : Table} {x y : String} (hc : ClosedT t)
    (hy : y ∈ succKeysAt t x) : y ∈ keysFinset t := by
  unfold succKeysAt at hy
  cases hx : tlookup t x with
  | none => rw [hx] at hy; simp at hy
  | some nx =>
    rw [hx] at hy
    obtain ⟨q, hq, rfl⟩ := List.mem_map.mp hy
    have := hc _ (tlookup_mem hx) q hq
    unfold keysFinset
    rw [List.mem_toFinset]
    exact (tlookup_isSome_iff_mem _ _).mp this

theorem reachStep_bound {t : Table} {s : Finset String} (hc : ClosedT t)
    (hs : s ⊆ keysFinset t) : reachStep t s ⊆ keysFinset t := by
  unfold reachStep
  refine Finset.union_subset hs ?_
  intro y hy
  obtain ⟨x, _, hy2⟩ := Finset.mem_biUnion.mp hy
  rw [List.mem_toFinset] at hy2
  exact succKeys_mem_keys hc hy2

theorem iterate_bound {t : Table} {root : String} (hc : ClosedT t)
    (hroot : root ∈ keysFinset t) (n : Nat) :
    (reachStep t)^[n] {root} ⊆ keysFinset t := by
  induction n with
  | zero => simpa using hroot
  | succ n ih =>
    rw [Function.iterate_succ_apply']
    exact reachStep_bound hc ih

theorem iterate_stable {t : Table} {s : Finset String} {i : Nat}
    (h : (reachStep t)^[i + 1] s = (reachStep t)^[i] s) :
    ∀ j, (reachStep t)^[i + j] s = (reachStep t)^[i] s := by
  intro j
  induction j with
  | zero => rfl
  | succ j ih =>
    have h2 : i + (j + 1) = (i + j) + 1 := by omega
    have h3 : reachStep t ((reachStep t)^[i] s) = (reachStep t)^[i] s := by
      rw [Function.iterate_succ_apply'] at h
      exact h
    rw [h2, Function.iterate_succ_apply', ih, h3]

theorem iterate_growth (t : Table) (root : String) (n : Nat) :
    (reachStep t)^[n + 1] {root} = (reachStep t)^[n] {root} ∨
    n + 1 ≤ ((reachStep t)^[n] {root}).card := by
  induction n with
  | zero =>
    right
    simp
  | succ n ih =>
    by_cases h : (reachStep t)^[n + 1] {root} = (reachStep t)^[n] {root}
    · left
      rw [Function.iterate_succ_apply'] at h
      rw [Function.iterate_succ_apply', Function.iterate_succ_apply']
      simp only [h]
    · right
      rcases ih with h2 | h2
      · exact absurd h2 h
      · have hss : (reachStep t)^[n] {root} ⊂ (reachStep t)^[n + 1] {root} :=
          Finset.ssubset_iff_subset_ne.mpr
            ⟨iterate_subset_succ t _ n, fun hh => h hh.symm⟩
        have := Finset.card_lt_card hss
        omega

theorem keysFinset_card_le (t : Table) : (keysFinset t).card ≤ t.length := by
  refine Nat.le_trans (List.toFinset_card_le _) ?_
  simp [keysOf]

theorem reachSet_fixpoint {t : Table} {root : String} (hc : ClosedT t)
    (hroot : root ∈ keysFinset t) :
    reachStep t (reachSet t root) = reachSet t root := by
  unfold reachSet
  rcases iterate_growth t root t.length with h | h
  · rw [Function.iterate_succ_apply'] at h
    exact h
  · have hb := Finset.card_le_card (iterate_bound hc hroot t.length)
    have hk := keysFinset_card_le t
    omega

theorem reachSet_sound {t : Table} {root : String} :
    ∀ k ∈ reachSet t root, Reaches t root k := by
  suffices h : ∀ n, ∀ k ∈ (reachStep t)^[n] {root}, Reaches t root k from
    h t.length
  intro n
  induction n with
  | zero =>
    intro k hk
    simp only [Function.iterate_zero, id, Finset.mem_singleton] at hk
    rw [hk]
    exact Relation.ReflTransGen.refl
  | succ n ih =>
    intro k hk
    rw [Function.iterate_succ_apply'] at hk
    rcases Finset.mem_union.mp hk with hk2 | hk2
    · exact ih k hk2
    · obtain ⟨x, hx, hk3⟩ := Finset.mem_biUnion.mp hk2
      rw [List.mem_toFinset] at hk3
      exact Relation.ReflTransGen.tail (ih x hx) hk3

theorem reachSet_complete {t : Table} {root k : String} (hc : ClosedT t)
    (hroot : root ∈ keysFinset t) (h : Reaches t root k) :
    k ∈ reachSet t root := by
  induction h with
  | refl =>
    exact subset_iterate t {root} t.length (Finset.mem_singleton_self root)
  | tail _ hedge ih =>
    rw [← reachSet_fixpoint hc hroot]
    unfold reachStep
    refine Finset.mem_union_right _ (Finset.mem_biUnion.mpr ⟨_, ih, ?_⟩)
    rw [List.mem_toFinset]
    exact hedge

theorem reachSet_in_keys {t : Table} {root : String} (hc : ClosedT t)
    (hroot : root ∈ keysFinset t) : reachSet t root ⊆ keysFinset t :=
  iterate_bound hc hroot t.length

/-! ## Lookup in the pruned table -/

theorem tlookup_filter_key (t : Table) (hull : Finset String) (k : String) :
    tlookup (t.filter fun p => decide (p.1 ∈ hull)) k =
      if k ∈ hull then tlookup t k else none := by
  induction t with
  | nil => simp [tlookup]
  | cons p t ih =>
    obtain ⟨k2, n2⟩ := p
    by_cases h2 : k2 ∈ hull
    · rw [List.filter_cons_of_pos (by simpa using h2), tlookup_cons, tlookup_cons]
      by_cases h3 : k2 = k
      · subst h3
        rw [if_pos rfl, if_pos rfl, if_pos h2]
      · rw [if_neg h3, if_neg h3, ih]
    · rw [List.filter_cons_of_neg (by simpa using h2), tlookup_cons, ih]
      by_cases h3 : k2 = k
      · subst h3
        rw [if_neg h2, if_neg h2]
      · rw [if_neg h3]

theorem keysOf_filter_nodup {t : Table} (P : String × SNode → Bool)
    (hd : (keysOf t).Nodup) : (keysOf (t.filter P)).Nodup := by
  have hsub : (t.filter P).Sublist t := List.filter_sublist t
  exact List.Nodup.sublist ((List.Sublist.map Prod.fst hsub)) hd

/-! ## Destructuring a successful engine move -/

theorem base_success {E : Engine} {m : Coord} {E1 : Engine}
    (h : base_make_move E m = (E1, none)) :
    ∃ n n1 q, tlookup E.table E.current = some n ∧
      E1.table = (if n.is_expanded = true then E.table
                  else (expand_single_node E.table E.current).1) ∧
      tlookup E1.table E.current = some n1 ∧
      q ∈ n1.succ ∧ q.1 = m ∧ E1.current = q.2 := by
  unfold base_make_move at h
  cases hcur : tlookup E.table E.current with
  | none => rw [hcur] at h; simp at h
  | some n =>
    rw [hcur] at h
    dsimp only at h
    cases h1 : tlookup (if n.is_expanded = true then E.table
        else (expand_single_node E.table E.current).1) E.current with
    | none => rw [h1] at h; simp at h
    | some n1 =>
      rw [h1] at h
      dsimp only at h
      cases h2 : n1.succ.find? (fun q => decide (q.1 = m)) with
      | none => rw [h2] at h; simp at h
      | some q =>
        rw [h2] at h
        obtain ⟨hE1, -⟩ := Prod.mk.inj h
        refine ⟨n, n1, q, rfl, ?_, ?_, ?_, ?_, ?_⟩
        · rw [← hE1]
        · rw [← hE1]
          exact h1
        · exact List.mem_of_find?_eq_some h2
        · have := List.find?_some h2
          simpa using this
        · rw [← hE1]

theorem base_closed {E : Engine} {m : Coord} {E1 : Engine}
    (hc : ClosedT E.table) (h : base_make_move E m = (E1, none)) :
    ClosedT E1.table := by
  obtain ⟨n, n1, q, hcur, htab, _, _, _, _⟩ := base_success h
  rw [htab]
  by_cases hexp : n.is_expanded = true
  · rw [if_pos hexp]
    exact hc
  · rw [if_neg hexp]
    exact expand_closed2 _ _ hc

theorem base_WFT {E : Engine} {m : Coord} {E1 : Engine}
    (hw : WFT E.table) (h : base_make_move E m = (E1, none)) :
    WFT E1.table := by
  obtain ⟨n, n1, q, hcur, htab, _, _, _, _⟩ := base_success h
  rw [htab]
  by_cases hexp : n.is_expanded = true
  · rw [if_pos hexp]
    exact hw
  · rw [if_neg hexp]
    exact ⟨expand_nodup2 _ _ hw.1, expand_nodeOK2 _ _ hw.2⟩

theorem base_current_present {E : Engine} {m : Coord} {E1 : Engine}
    (hc : ClosedT E.table) (h : base_make_move E m = (E1, none)) :
    (tlookup E1.table E1.current).isSome = true := by
  obtain ⟨n, n1, q, hcur, htab, hn1, hq, _, hcur1⟩ := base_success h
  have hc1 : ClosedT E1.table := base_closed hc h
  rw [hcur1]
  exact hc1 _ (tlookup_mem hn1) q hq

/-- Destructuring of a successful pruned move into the filtered table. -/
theorem pruned_success {E : Engine} {m : Coord} {E2 : Engine}
    (h : pruned_make_move E m = (E2, none)) :
    ∃ E1, base_make_move E m = (E1, none) ∧
      E2 = { table := E1.table.filter
               fun p => decide (p.1 ∈ reachSet E1.table E1.current),
             current := E1.current } := by
  unfold pruned_make_move at h
  cases hb : base_make_move E m with
  | mk E1 e =>
    cases e with
    | none =>
      rw [hb] at h
      dsimp only at h
      obtain ⟨hE2, -⟩ := Prod.mk.inj h
      exact ⟨E1, rfl, hE2.symm⟩
    | some err =>
      rw [hb] at h
      simp at h

/-- C10: the successor-closure invariant.  It is preserved by the three
table-changing operations of the engine: inserting a fresh node, expanding
a resident node, and a committed move under pruning; and under the
invariant every key of the pruning hull is a resident key, so the table
lookups of the reachability sweep never fail. -/
theorem c10_closure_invariant :
    (∀ (t : Table) (s : GameState), ClosedT t →
      ClosedT (add_node t (freshNode s)).1) ∧
    (∀ (t : Table) (k : String), ClosedT t →
      ClosedT (expand_single_node t k).1) ∧
    (∀ (E : Engine) (m : Coord) (E2 : Engine), WFT E.table → ClosedT E.table →
      pruned_make_move E m = (E2, none) → ClosedT E2.table) ∧
    (∀ (t : Table) (root : String), ClosedT t →
      (tlookup t root).isSome = true →
      ∀ k ∈ reachSet t root, (tlookup t k).isSome = true) := by
  have hnever : ∀ (t : Table) (root : String), ClosedT t →
      (tlookup t root).isSome = true →
      ∀ k ∈ reachSet t root, (tlookup t k).isSome = true := by
    intro t root hc hroot k hk
    have hin := reachSet_in_keys hc (mem_keysFinset.mpr hroot) hk
    exact mem_keysFinset.mp hin
  refine ⟨?_, ?_, ?_, hnever⟩
  · intro t s hc
    by_cases h2 : (tlookup t (node_key s)).isSome = true
    · rw [add_fresh_present h2]
      exact hc
    · have h3 := lookup_none_of_not_isSome h2
      rw [add_fresh_absent h3]
      intro p hp q hq
      rcases List.mem_append.mp hp with h4 | h4
      · obtain ⟨n2, hn2⟩ := Option.isSome_iff_exists.mp (hc p h4 q hq)
        rw [tlookup_append_some _ hn2]
        rfl
      · simp only [List.mem_singleton] at h4
        subst h4
        simp [freshNode] at hq
  · intro t k hc
    exact expand_closed2 t k hc
  · intro E m E2 hw hc hp
    obtain ⟨E1, hbase, hE2⟩ := pruned_success hp
    have hc1 : ClosedT E1.table := base_closed hc hbase
    have hw1 : WFT E1.table := base_WFT hw hbase
    have hroot : E1.current ∈ keysFinset E1.table :=
      mem_keysFinset.mpr (base_current_present hc hbase)
    rw [hE2]
    intro p hp2 q hq
    have hp3 := List.mem_filter.mp hp2
    have hhull : p.1 ∈ reachSet E1.table E1.current := by
      have := hp3.2
      simpa using this
    have hlk : tlookup E1.table p.1 = some p.2 := by
      refine tlookup_of_mem_nodup hw1.1 ?_
      obtain ⟨a, b⟩ := p
      exact hp3.1
    have hq2 : q.2 ∈ succKeysAt E1.table p.1 := by
      unfold succKeysAt
      rw [hlk]
      exact List.mem_map_of_mem _ hq
    have hq3 : q.2 ∈ reachSet E1.table E1.current := by
      rw [← reachSet_fixpoint hc1 hroot]
      exact Finset.mem_union_right _
        (Finset.mem_biUnion.mpr ⟨p.1, hhull, List.mem_toFinset.mpr hq2⟩)
    have hq4 : (tlookup E1.table q.2).isSome = true :=
      hc1 _ hp3.1 q hq
    rw [tlookup_filter_key, if_pos hq3]
    exact hq4

/-- Witness for C10 at a concrete table, node, expansion and pruned move:
the engine of the opening state committing the reply at cell (1, 1). -/
theorem c10_closure_invariant_witness :
    ClosedT (add_node (init_engine starting_state).table
      (freshNode (move_body starting_state (0, 0)))).1 ∧
    ClosedT (expand_single_node (init_engine starting_state).table
      (node_key starting_state)).1 ∧
    ClosedT (pruned_make_move engineAfterOpening (1, 1)).1.table ∧
    ((tlookup (init_engine starting_state).table (node_key starting_state)).isSome
        = true →
      ∀ k ∈ reachSet (init_engine starting_state).table (node_key starting_state),
        (tlookup (init_engine starting_state).table k).isSome = true) := by
  refine ⟨?_, ?_, ?_, ?_⟩
  · exact c10_closure_invariant.1 _ _ (by decide)
  · exact c10_closure_invariant.2.1 _ _ (by decide)
  · exact c10_closure_invariant.2.2.1 engineAfterOpening (1, 1) _ (by decide)
      (by decide) rfl
  · intro h
    exact c10_closure_invariant.2.2.2 _ _ (by decide) h

/-! ## The legal-move path of an engine move -/

theorem find?_map_legal {s : GameState} {m : Coord} (l : List Coord)
    (hm : m ∈ l) :
    (l.map fun m2 => (m2, node_key (move_body s m2))).find?
        (fun q => decide (q.1 = m))
      = some (m, node_key (move_body s m)) := by
  induction l with
  | nil => simp at hm
  | cons a l ih =>
    by_cases ha : a = m
    · subst ha
      simp [List.find?_cons]
    · have hm2 : m ∈ l := (List.mem_cons.mp hm).resolve_left fun h => ha h.symm
      simp only [List.map_cons, List.find?_cons, ha, decide_False]
      exact ih hm2

theorem find?_smap_legal {s : GameState} {m : Coord}
    (h : is_legal_move s m = true) :
    (smapOf s).find? (fun q => decide (q.1 = m))
      = some (m, node_key (move_body s m)) :=
  find?_map_legal _ (mem_all_legal.mpr h)

theorem base_make_move_legal {E : Engine} {n : SNode} {m : Coord}
    (hcur : tlookup E.table E.current = some n) (hOK : NodeOK E.current n)
    (hleg : is_legal_move n.state m = true) :
    base_make_move E m =
      ({ table := if n.is_expanded = true then E.table
                  else (expand_single_node E.table E.current).1,
         current := node_key (move_body n.state m) }, none) := by
  unfold base_make_move
  rw [hcur]
  dsimp only
  by_cases hexp : n.is_expanded = true
  · rw [if_pos hexp, hcur]
    dsimp only
    rw [hOK.2.2.1 hexp, find?_smap_legal hleg]
  · rw [if_neg hexp, expand_lookup_self hcur]
    dsimp only
    rw [show (expandedNode n).succ = smapOf n.state from rfl, find?_smap_legal hleg]

theorem game_state_ext {s1 s2 : GameState} (hb : s1.board = s2.board)
    (ha : s1.active_player = s2.active_player) : s1 = s2 := by
  cases s1
  cases s2
  simp only at hb ha
  rw [hb, ha]

/-- A well-formed table stores at key k the one valid state with that
canonical key. -/
theorem state_of_key {t : Table} {k : String} {nk : SNode} {s2 : GameState}
    (hw : WFT t) (hk : tlookup t k = some nk) (hkey : node_key s2 = k)
    (hv2 : ValidState s2) : nk.state = s2 := by
  have hOK := hw.2 _ (tlookup_mem hk)
  have hOK1 : ValidState nk.state := hOK.1
  have hOK2 : node_key nk.state = k := hOK.2.1
  have hb : nk.state.board = s2.board :=
    key_inj hOK1.1 hv2.1 (by rw [hOK2, hkey])
  exact game_state_ext hb (by rw [hOK1.2.1, hv2.2.1, hb])

theorem active_player_cases {s : GameState} (hv : ValidState s)
    (hfin : is_finished s = false) :
    (s.active_player = some PLAYER_X ∧
      countP s.board PLAYER_X = countP s.board PLAYER_O) ∨
    (s.active_player = some PLAYER_O ∧
      countP s.board PLAYER_X = countP s.board PLAYER_O + 1) := by
  obtain ⟨_, hap, hcnt⟩ := hv
  by_cases hcc : countP s.board PLAYER_X = countP s.board PLAYER_O
  · left
    refine ⟨?_, hcc⟩
    rw [hap, derivedPlayer_def, is_finished_reconstruct]
    simp [hfin, hcc]
  · right
    refine ⟨?_, hcnt.resolve_left hcc⟩
    rw [hap, derivedPlayer_def, is_finished_reconstruct]
    simp [hfin, hcc]

/-- A legal move fills exactly one more cell. -/
theorem counts_move {s : GameState} {c : Coord} (hv : ValidState s)
    (hl : is_legal_move s c = true) :
    countP (move_body s c).board PLAYER_X + countP (move_body s c).board PLAYER_O
      = countP s.board PLAYER_X + countP s.board PLAYER_O + 1 := by
  obtain ⟨hfin, hempty⟩ := legal_parts hl
  rcases active_player_cases hv hfin with ⟨ha, _⟩ | ⟨ha, _⟩
  · rw [move_body_board, ha,
      countP_update_eq _ _ _ _ (by rw [hempty]; simp) rfl,
      countP_update_ne _ _ _ _ (by rw [hempty]; simp) (by decide)]
    omega
  · rw [move_body_board, ha,
      countP_update_ne _ _ _ _ (by rw [hempty]; simp) (by decide),
      countP_update_eq _ _ _ _ (by rw [hempty]; simp) rfl]
    omega

/-- The number of filled cells of the state held at a key. -/
def massAt (t : Table) (k : String) : Nat :=
  match stateAt t k with
  | some s => countP s.board PLAYER_X + countP s.board PLAYER_O
  | none => 0

/-- In a well-formed closed table, every recorded successor edge leads to
a state with one more filled cell. -/
theorem edge_mass {t : Table} {x y : String} (hw : WFT t) (hc : ClosedT t)
    (hy : y ∈ succKeysAt t x) : massAt t y = massAt t x + 1 := by
  unfold succKeysAt at hy
  cases hx : tlookup t x with
  | none => rw [hx] at hy; simp at hy
  | some nx =>
    rw [hx] at hy
    obtain ⟨q, hq, rfl⟩ := List.mem_map.mp hy
    have hOKx := hw.2 _ (tlookup_mem hx)
    have hexp : nx.is_expanded = true := by
      by_contra h2
      simp only [Bool.not_eq_true] at h2
      rw [hOKx.2.2.2 h2] at hq
      simp at hq
    have hsucc := hOKx.2.2.1 hexp
    obtain ⟨m2, hm2, rfl⟩ := mem_smapOf (hsucc ▸ hq)
    have hleg : is_legal_move nx.state m2 = true := mem_all_legal.mp hm2
    have hvy : ValidState (move_body nx.state m2) := valid_step hOKx.1 hleg
    have hisy : (tlookup t (node_key (move_body nx.state m2))).isSome = true :=
      hc _ (tlookup_mem hx) _ hq
    obtain ⟨ny, hny⟩ := Option.isSome_iff_exists.mp hisy
    have hst : ny.state = move_body nx.state m2 := state_of_key hw hny rfl hvy
    unfold massAt stateAt
    rw [hny, hx]
    show countP ny.state.board PLAYER_X + countP ny.state.board PLAYER_O
      = countP nx.state.board PLAYER_X + countP nx.state.board PLAYER_O + 1
    rw [hst]
    exact counts_move hOKx.1 hleg

theorem path_mass {t : Table} (hw : WFT t) (hc : ClosedT t) {a b : String}
    (h : Reaches t a b) : massAt t a ≤ massAt t b := by
  induction h with
  | refl => exact Nat.le_refl _
  | tail _ hedge ih =>
    rw [edge_mass hw hc hedge]
    omega

theorem length_le_of_keys_sub {t2 t : Table}
    (hd2 : (keysOf t2).Nodup) (hd : (keysOf t).Nodup)
    (hsub : ∀ k ∈ keysOf t2, k ∈ keysOf t) : t2.length ≤ t.length := by
  have hfin : (keysOf t2).toFinset ⊆ (keysOf t).toFinset := by
    intro k hk
    rw [List.mem_toFinset] at hk ⊢
    exact hsub k hk
  have := Finset.card_le_card hfin
  rw [List.toFinset_card_of_nodup hd2, List.toFinset_card_of_nodup hd] at this
  simpa [keysOf] using this

theorem nodup_const_length {t2 : Table} {a : String}
    (hd2 : (keysOf t2).Nodup) (hall : ∀ k ∈ keysOf t2, k = a) :
    t2.length ≤ 1 := by
  have hlen : t2.length = (keysOf t2).length := by simp [keysOf]
  rw [hlen]
  cases hks : keysOf t2 with
  | nil => simp
  | cons x l =>
    rw [hks] at hd2 hall
    cases hl : l with
    | nil => simp
    | cons y l2 =>
      exfalso
      rw [hl] at hd2 hall
      have hx : x = a := hall x (List.mem_cons_self _ _)
      have hy : y = a :=
        hall y (List.mem_cons_of_mem _ (List.mem_cons_self _ _))
      rw [List.nodup_cons] at hd2
      exact hd2.1 (by rw [hx, ← hy]; exact List.mem_cons_self _ _)

/-- C4: under the engine invariants, committing a legal move with pruning
succeeds, the pruned table holds exactly the keys reachable from the new
current node along recorded successor edges, and the table never grows
across the call. -/
theorem c4_pruning_exact_reachable {E : Engine} {n : SNode} {m : Coord}
    (hw : WFT E.table) (hc : ClosedT E.table)
    (hcur : tlookup E.table E.current = some n)
    (hleg : is_legal_move n.state m = true) :
    (pruned_make_move E m).2 = none ∧
    (∀ k, (tlookup (pruned_make_move E m).1.table k).isSome = true ↔
      Reaches (pruned_make_move E m).1.table (pruned_make_move E m).1.current k) ∧
    (pruned_make_move E m).1.table.length ≤ E.table.length := by
  have hOK : NodeOK E.current n := hw.2 _ (tlookup_mem hcur)
  have hbase := base_make_move_legal hcur hOK hleg
  set t1 := if n.is_expanded = true then E.table
            else (expand_single_node E.table E.current).1 with ht1def
  set c2 := node_key (move_body n.state m) with hc2def
  set tf := t1.filter (fun p => decide (p.1 ∈ reachSet t1 c2)) with htfdef
  have hpr : pruned_make_move E m = ({ table := tf, current := c2 }, none) := by
    rw [htfdef]
    unfold pruned_make_move
    rw [hbase]
  have hw1 : WFT t1 := by
    rw [ht1def]
    by_cases hexp : n.is_expanded = true
    · rw [if_pos hexp]; exact hw
    · rw [if_neg hexp]; exact ⟨expand_nodup2 _ _ hw.1, expand_nodeOK2 _ _ hw.2⟩
  have hc1 : ClosedT t1 := by
    rw [ht1def]
    by_cases hexp : n.is_expanded = true
    · rw [if_pos hexp]; exact hc
    · rw [if_neg hexp]; exact expand_closed2 _ _ hc
  have hc2some : (tlookup t1 c2).isSome = true := by
    rw [ht1def, hc2def]
    by_cases hexp : n.is_expanded = true
    · rw [if_pos hexp]
      refine hc _ (tlookup_mem hcur) (m, node_key (move_body n.state m)) ?_
      rw [hOK.2.2.1 hexp]
      exact List.mem_map_of_mem _ (mem_all_legal.mpr hleg)
    · rw [if_neg hexp]
      exact expand_produced hcur (mem_all_legal.mpr hleg)
  have hroot : c2 ∈ keysFinset t1 := mem_keysFinset.mpr hc2some
  have hlkf : ∀ k, tlookup tf k =
      if k ∈ reachSet t1 c2 then tlookup t1 k else none := by
    intro k
    rw [htfdef]
    exact tlookup_filter_key t1 _ k
  have htrans1 : ∀ k, Reaches t1 c2 k → Reaches tf c2 k := by
    intro k h
    induction h with
    | refl => exact Relation.ReflTransGen.refl
    | @tail b c hprev hedge ih =>
      refine Relation.ReflTransGen.tail ih ?_
      have hb : b ∈ reachSet t1 c2 := reachSet_complete hc1 hroot hprev
      show c ∈ succKeysAt tf b
      unfold succKeysAt
      rw [hlkf b, if_pos hb]
      exact hedge
  have htrans2 : ∀ k, Reaches tf c2 k → Reaches t1 c2 k := by
    intro k h
    induction h with
    | refl => exact Relation.ReflTransGen.refl
    | @tail b c hprev hedge ih =>
      refine Relation.ReflTransGen.tail ih ?_
      have hedge2 : c ∈ succKeysAt tf b := hedge
      unfold succKeysAt at hedge2
      rw [hlkf b] at hedge2
      by_cases hb : b ∈ reachSet t1 c2
      · rw [if_pos hb] at hedge2
        exact hedge2
      · rw [if_neg hb] at hedge2
        simp at hedge2
  refine ⟨by rw [hpr], ?_, ?_⟩
  · intro k
    rw [hpr]
    dsimp only
    constructor
    · intro hk
      rw [hlkf k] at hk
      by_cases hh : k ∈ reachSet t1 c2
      · exact htrans1 k (reachSet_sound _ hh)
      · rw [if_neg hh] at hk
        simp at hk
    · intro hk
      have hh : k ∈ reachSet t1 c2 := reachSet_complete hc1 hroot (htrans2 k hk)
      rw [hlkf k, if_pos hh]
      exact mem_keysFinset.mp (reachSet_in_keys hc1 hroot hh)
  · rw [hpr]
    dsimp only
    by_cases hexp : n.is_expanded = true
    · have ht1E : t1 = E.table := by rw [ht1def, if_pos hexp]
      rw [htfdef, ht1E]
      exact List.length_filter_le _ _
    · have hd2 : (keysOf tf).Nodup := by
        rw [htfdef]
        exact keysOf_filter_nodup _ hw1.1
      by_cases hc2old : c2 ∈ keysOf E.table
      · have hlk_cur : tlookup t1 E.current = some (expandedNode n) := by
          rw [ht1def, if_neg hexp]
          exact expand_lookup_self hcur
        have hmass_cur : massAt t1 E.current
            = countP n.state.board PLAYER_X + countP n.state.board PLAYER_O := by
          unfold massAt stateAt
          rw [hlk_cur]
          rfl
        have hvc2 : ValidState (move_body n.state m) := valid_step hOK.1 hleg
        obtain ⟨nc, hnc⟩ := Option.isSome_iff_exists.mp hc2some
        have hncst : nc.state = move_body n.state m :=
          state_of_key hw1 hnc (by rw [hc2def]) hvc2
        have hmass_c2 : massAt t1 c2
            = countP n.state.board PLAYER_X + countP n.state.board PLAYER_O + 1 := by
          unfold massAt stateAt
          rw [hnc]
          show countP nc.state.board PLAYER_X + countP nc.state.board PLAYER_O = _
          rw [hncst]
          exact counts_move hOK.1 hleg
        have hnotcur : ¬ Reaches t1 c2 E.current := by
          intro h2
          have hle := path_mass hw1 hc1 h2
          rw [hmass_cur, hmass_c2] at hle
          omega
        have hsub : ∀ k, Reaches t1 c2 k → k ∈ keysOf E.table := by
          intro k h2
          induction h2 with
          | refl => exact hc2old
          | @tail b c hprev hedge ih =>
            have hbne : b ≠ E.current := fun he => hnotcur (he ▸ hprev)
            obtain ⟨mb, hmb⟩ := Option.isSome_iff_exists.mp
              ((tlookup_isSome_iff_mem _ _).mpr ih)
            have hlkb : tlookup t1 b = some mb := by
              rw [ht1def, if_neg hexp]
              exact expand_lookup_other hcur hbne hmb
            have hedge2 : c ∈ succKeysAt t1 b := hedge
            unfold succKeysAt at hedge2
            rw [hlkb] at hedge2
            obtain ⟨q, hq, rfl⟩ := List.mem_map.mp hedge2
            exact (tlookup_isSome_iff_mem _ _).mp (hc _ (tlookup_mem hmb) q hq)
        refine length_le_of_keys_sub hd2 hw.1 ?_
        intro k hk
        have hsome : (tlookup tf k).isSome = true :=
          (tlookup_isSome_iff_mem _ _).mpr hk
        rw [hlkf k] at hsome
        by_cases hh : k ∈ reachSet t1 c2
        · exact hsub k (reachSet_sound _ hh)
        · rw [if_neg hh] at hsome
          simp at hsome
      · have hcurkeys : E.current ∈ keysOf E.table :=
          (tlookup_isSome_iff_mem _ _).mp (by rw [hcur]; rfl)
        have hc2ne : c2 ≠ E.current := fun he => hc2old (he ▸ hcurkeys)
        have hnone : tlookup E.table c2 = none := by
          cases hx : tlookup E.table c2 with
          | none => rfl
          | some z =>
            exact absurd
              ((tlookup_isSome_iff_mem _ _).mp (by rw [hx]; rfl)) hc2old
        have hfresh : ∃ s2, tlookup t1 c2 = some (freshNode s2) := by
          have ht1c2 : tlookup t1 c2
              = tlookup (expand_single_node E.table E.current).1 c2 := by
            rw [ht1def, if_neg hexp]
          rcases expand_lookup_new hcur hc2ne hnone with h3 | ⟨m2, _, _, h3⟩
          · rw [ht1c2, h3] at hc2some
            simp at hc2some
          · exact ⟨_, by rw [ht1c2]; exact h3⟩
        obtain ⟨s2, hs2⟩ := hfresh
        have hempty_succ : succKeysAt t1 c2 = [] := by
          unfold succKeysAt
          rw [hs2]
          rfl
        have honly : ∀ k, Reaches t1 c2 k → k = c2 := by
          intro k h2
          rcases Relation.ReflTransGen.cases_head h2 with h3 | ⟨c3, hc3, -⟩
          · exact h3.symm
          · rw [hempty_succ] at hc3
            simp at hc3
        have hlen1 : tf.length ≤ 1 := by
          refine @nodup_const_length tf c2 hd2 ?_
          intro k hk
          have hsome : (tlookup tf k).isSome = true :=
            (tlookup_isSome_iff_mem _ _).mpr hk
          rw [hlkf k] at hsome
          by_cases hh : k ∈ reachSet t1 c2
          · exact honly k (reachSet_sound _ hh)
          · rw [if_neg hh] at hsome
            simp at hsome
        have hlenE : 1 ≤ E.table.length := by
          cases htb : E.table with
          | nil =>
            rw [htb] at hcurkeys
            simp [keysOf] at hcurkeys
          | cons p t2 => simp
        omega

/-- Witness for C4 at the one-node engine committing the reply (1, 1). -/
theorem c4_pruning_exact_reachable_witness :
    (pruned_make_move engineAfterOpening (1, 1)).2 = none ∧
    (∀ k, (tlookup (pruned_make_move engineAfterOpening (1, 1)).1.table k).isSome
        = true ↔
      Reaches (pruned_make_move engineAfterOpening (1, 1)).1.table
        (pruned_make_move engineAfterOpening (1, 1)).1.current k) ∧
    (pruned_make_move engineAfterOpening (1, 1)).1.table.length
      ≤ engineAfterOpening.table.length :=
  @c4_pruning_exact_reachable engineAfterOpening
    (freshNode (move_body starting_state (0, 0))) (1, 1)
    (by decide) (by decide) (by decide) (by decide)

/-- C3 counterexample: committing the occupied cell (0, 0) on the engine
holding the single unexpanded node after that opening move fails with
IllegalMoveError, as claimed, but the failed call grows the table from one
entry to nine: the current node is expanded, and its successors inserted,
before the successor lookup raises. -/
theorem c3_illegal_move_table_counterexample :
    (base_make_move engineAfterOpening (0, 0)).2 = some .illegalMove ∧
    engineAfterOpening.table.length = 1 ∧
    (base_make_move engineAfterOpening (0, 0)).1.table.length = 9 := by
  decide

/-- C3 amended: committing an illegal move fails with IllegalMoveError and
leaves the current-node reference unchanged; the table is unchanged when
the current node was already expanded, but an unexpanded current node is
expanded first, which inserts its legal successors before the failure. -/
theorem c3_illegal_move_amended {E : Engine} {n : SNode} {m : Coord}
    (hw : WF E) (hcur : tlookup E.table E.current = some n)
    (hil : is_legal_move n.state m = false) :
    (base_make_move E m).2 = some .illegalMove ∧
    (base_make_move E m).1.current = E.current ∧
    (n.is_expanded = true → (base_make_move E m).1.table = E.table) := by
  have hOK : NodeOK E.current n := hw.1.2 _ (tlookup_mem hcur)
  unfold base_make_move
  rw [hcur]
  dsimp only
  by_cases hexp : n.is_expanded = true
  · rw [if_pos hexp, hcur]
    dsimp only
    rw [hOK.2.2.1 hexp, find?_smap_none hil]
    exact ⟨rfl, rfl, fun _ => rfl⟩
  · rw [if_neg hexp, expand_lookup_self hcur]
    dsimp only
    have hsucc : (expandedNode n).succ = smapOf n.state := rfl
    rw [hsucc, find?_smap_none hil]
    exact ⟨rfl, rfl, fun h2 => absurd h2 hexp⟩

/-- Witness for the amended C3 theorem at the concrete one-node engine. -/
theorem c3_illegal_move_amended_witness :
    (base_make_move engineAfterOpening (0, 0)).2 = some .illegalMove ∧
    (base_make_move engineAfterOpening (0, 0)).1.current
      = engineAfterOpening.current ∧
    ((freshNode (move_body starting_state (0, 0))).is_expanded = true →
      (base_make_move engineAfterOpening (0, 0)).1.table
        = engineAfterOpening.table) :=
  c3_illegal_move_amended (by decide) (by decide) (by decide)

/-- A finished board reachable by play: X holds the top row, O sits on
cells (0, 1) and (1, 1). -/
def finBoard : Board := fun c =>
  if c.2 = 0 then some 1
  else if c = (0, 1) then some 2
  else if c = (1, 1) then some 2
  else none

def finState : GameState := { board := finBoard, active_player := none }

/-- C7 counterexample: a table whose only node wraps a finished state.
The sweep expands that node (its expansion flag turns true), yet the
returned flag is false, because the source reports len(old) + len(new) > 0
of the last expansion rather than whether any node was expanded. -/
theorem c7_terminal_sweep_counterexample :
    (one_step (init_engine finState)).2 = false ∧
    isExpandedAt (init_engine finState).table (node_key finState) = false ∧
    isExpandedAt (one_step (init_engine finState)).1.table (node_key finState)
      = true := by
  decide

/-! ## Forward sweep (ForwardSweepingMixin) -/

/-- The constructor of ForwardSweepingMixin: the assert rejects a
non-positive search depth at construction time, modelled as the none
outcome. -/
def mkForwardSweep (search_depth : Int) : Option Nat :=
  if 0 < search_depth then some search_depth.toNat else none

/-- ForwardSweepingMixin.step_search_tree_expansion over one layer: each
node of the layer is expanded when not yet expanded, its successors are
collected, those not already known joining the next layer and all of them
the known set.  The Python iteration order over the layer set is fixed
here as list order; layer, next and known are sets of node keys, standing
for the node-object sets of the source. -/
def sweep_step (t : Table) (layer : List String) (next known : Finset String) :
    Table × Finset String × Finset String :=
  layer.foldl
    (fun acc k =>
      let t2 := if isExpandedAt acc.1 k then acc.1
                else (expand_single_node acc.1 k).1
      (t2, acc.2.1 ∪ ((succKeysAt t2 k).toFinset \ acc.2.2),
       acc.2.2 ∪ (succKeysAt t2 k).toFinset))
    (t, next, known)

/-- The while loop of ForwardSweepingMixin.expand_search_tree: up to the
configured depth, run one layer step, stopping early when a step produced
no new nodes; the next layer is iterated in sorted key order. -/
def sweep_loop : Nat → Table → List String → Finset String → Table
  | 0, t, _, _ => t
  | d + 1, t, layer, known =>
    if (sweep_step t layer ∅ known).2.1 = ∅ then (sweep_step t layer ∅ known).1
    else sweep_loop d (sweep_step t layer ∅ known).1
      ((sweep_step t layer ∅ known).2.1.sort (· ≤ ·))
      (sweep_step t layer ∅ known).2.2

/-- ForwardSweepingMixin.expand_search_tree: layer zero holds the current
node alone, which also seeds the known set. -/
def forward_sweep (E : Engine) (depth : Nat) : Engine :=
  { table := sweep_loop depth E.table [E.current] {E.current},
    current := E.current }

/-- Reading a key character back as a board cell. -/
def symToCell (ch : Char) : Option Nat :=
  if ch = 'X' then some 1 else if ch = 'O' then some 2 else none

def boardOfKey (k : String) : Board :=
  fun c => symToCell (k.data.getD (3 * c.1.val + c.2.val) ' ')

/-- The one valid game state a canonical key denotes: the board read back
from the nine characters, with the active player the play rules force. -/
def stateOfKey (k : String) : GameState :=
  { board := boardOfKey k, active_player := derivedPlayer (boardOfKey k) }

/-- The successor keys of a key under the game rules: the layer-expansion
relation of the breadth-first sweep as the spec words it. -/
def gsuccK (k : String) : Finset String :=
  ((all_legal_moves (stateOfKey k)).map
    fun m => node_key (move_body (stateOfKey k) m)).toFinset

/-- The layers of the breadth-first sweep as the spec describes them:
layer zero is the start set, each layer contributes its successors not yet
visited as the next layer, and the listing stops at the configured depth
or as soon as a layer produces no new nodes. -/
def specLayers : Nat → Finset String → Finset String → List (Finset String)
  | 0, _, _ => []
  | d + 1, layer, known =>
    layer ::
      (if (layer.biUnion gsuccK) \ known = ∅ then []
       else specLayers d ((layer.biUnion gsuccK) \ known)
              (known ∪ layer.biUnion gsuccK))

theorem boardOfKey_node_key {s : GameState} (hv : ∀ c, cellOK (s.board c)) :
    boardOfKey (node_key s) = s.board := by
  have hcell : ∀ c2 : Coord, symToCell (player_symbol (s.board c2)) = s.board c2 := by
    intro c2
    rcases hv c2 with h | h | h <;> rw [h] <;> rfl
  funext c
  obtain ⟨x, y⟩ := c
  fin_cases x <;> fin_cases y <;> exact hcell _

theorem stateOfKey_valid {s : GameState} (hv : ValidState s) :
    stateOfKey (node_key s) = s := by
  have hb : boardOfKey (node_key s) = s.board := boardOfKey_node_key hv.1
  refine game_state_ext ?_ ?_
  · exact hb
  · show derivedPlayer (boardOfKey (node_key s)) = s.active_player
    rw [hb, ← hv.2.1]

theorem gsuccK_of_node {k : String} {n : SNode} (hOK : NodeOK k n) :
    gsuccK k = ((smapOf n.state).map Prod.snd).toFinset := by
  unfold gsuccK
  rw [← hOK.2.1, stateOfKey_valid hOK.1]
  congr 1
  unfold smapOf
  rw [List.map_map]
  rfl

theorem sweep_head_facts {t : Table} {k : String} {nk : SNode} {t2 : Table}
    (hw : WFT t) (hc : ClosedT t) (hnk : tlookup t k = some nk)
    (ht2 : t2 = if isExpandedAt t k then t else (expand_single_node t k).1) :
    WFT t2 ∧ ClosedT t2 ∧
    succKeysAt t2 k = (smapOf nk.state).map Prod.snd ∧
    isExpandedAt t2 k = true ∧
    (∀ k2, (tlookup t k2).isSome = true → stateAt t2 k2 = stateAt t k2) ∧
    (∀ k2, (tlookup t k2).isSome = true → (tlookup t2 k2).isSome = true) ∧
    (∀ k2, k2 ≠ k → isExpandedAt t2 k2 = isExpandedAt t k2) := by
  have hOKk : NodeOK k nk := hw.2 _ (tlookup_mem hnk)
  by_cases hich : isExpandedAt t k = true
  · rw [if_pos hich] at ht2
    subst ht2
    have hexpnk : nk.is_expanded = true := by
      unfold isExpandedAt at hich
      rw [hnk] at hich
      exact hich
    refine ⟨hw, hc, ?_, hich, fun k2 _ => rfl, fun k2 h => h, fun k2 _ => rfl⟩
    unfold succKeysAt
    rw [hnk]
    show nk.succ.map Prod.snd = (smapOf nk.state).map Prod.snd
    rw [hOKk.2.2.1 hexpnk]
  · rw [if_neg hich] at ht2
    subst ht2
    refine ⟨⟨expand_nodup2 _ _ hw.1, expand_nodeOK2 _ _ hw.2⟩,
      expand_closed2 _ _ hc, ?_, expand_isExpandedAt_self hnk,
      fun k2 h => expand_stateAt t k h, fun k2 h => expand_isSome_mono hnk h,
      fun k2 h => expand_isExpandedAt_other t k h⟩
    unfold succKeysAt
    rw [expand_lookup_self hnk]
    rfl

theorem sweep_step_spec (layer : List String) :
    ∀ (t : Table) (next known : Finset String),
      WFT t → ClosedT t →
      (∀ k ∈ layer, (tlookup t k).isSome = true) →
      WFT (sweep_step t layer next known).1 ∧
      ClosedT (sweep_step t layer next known).1 ∧
      (∀ k2, (tlookup t k2).isSome = true →
        stateAt (sweep_step t layer next known).1 k2 = stateAt t k2) ∧
      (∀ k2, (tlookup t k2).isSome = true →
        (tlookup (sweep_step t layer next known).1 k2).isSome = true) ∧
      (∀ k ∈ layer, isExpandedAt (sweep_step t layer next known).1 k = true) ∧
      (∀ k2, k2 ∉ layer →
        isExpandedAt (sweep_step t layer next known).1 k2 = isExpandedAt t k2) ∧
      (sweep_step t layer next known).2.1
        = next ∪ ((layer.toFinset.biUnion gsuccK) \ known) ∧
      (sweep_step t layer next known).2.2
        = known ∪ layer.toFinset.biUnion gsuccK ∧
      (∀ k2 ∈ layer.toFinset.biUnion gsuccK,
        (tlookup (sweep_step t layer next known).1 k2).isSome = true) := by
  induction layer with
  | nil =>
    intro t next known hw hc _
    refine ⟨hw, hc, fun k2 _ => rfl, fun k2 h => h, by simp, fun k2 _ => rfl,
      by simp [sweep_step], by simp [sweep_step], by simp⟩
  | cons k layer ih =>
    intro t next known hw hc hres
    obtain ⟨nk, hnk⟩ := Option.isSome_iff_exists.mp (hres k (List.mem_cons_self _ _))
    have hOKk : NodeOK k nk := hw.2 _ (tlookup_mem hnk)
    obtain ⟨hw2, hc2, hsuccs, hexp2, hstate2, hmono2, hother2⟩ :=
      sweep_head_facts hw hc hnk rfl
    have hstep : sweep_step t (k :: layer) next known
        = sweep_step (if isExpandedAt t k then t else (expand_single_node t k).1)
            layer
            (next ∪ ((succKeysAt (if isExpandedAt t k then t
              else (expand_single_node t k).1) k).toFinset \ known))
            (known ∪ (succKeysAt (if isExpandedAt t k then t
              else (expand_single_node t k).1) k).toFinset) := rfl
    set t2 := if isExpandedAt t k then t else (expand_single_node t k).1 with ht2
    have hres2 : ∀ k0 ∈ layer, (tlookup t2 k0).isSome = true :=
      fun k0 h0 => hmono2 k0 (hres k0 (List.mem_cons_of_mem _ h0))
    obtain ⟨ihw, ihc, ihstate, ihmono, ihexp, ihother, ihnext, ihknown, ihprod⟩ :=
      ih t2 (next ∪ ((succKeysAt t2 k).toFinset \ known))
        (known ∪ (succKeysAt t2 k).toFinset) hw2 hc2 hres2
    have hS : (succKeysAt t2 k).toFinset = gsuccK k := by
      rw [hsuccs, gsuccK_of_node hOKk]
    have hbU : (k :: layer).toFinset.biUnion gsuccK
        = gsuccK k ∪ layer.toFinset.biUnion gsuccK := by
      rw [List.toFinset_cons, Finset.biUnion_insert]
    refine ⟨?_, ?_, ?_, ?_, ?_, ?_, ?_, ?_, ?_⟩
    · rw [hstep]; exact ihw
    · rw [hstep]; exact ihc
    · intro k2 h2
      rw [hstep]
      rw [ihstate k2 (hmono2 k2 h2)]
      exact hstate2 k2 h2
    · intro k2 h2
      rw [hstep]
      exact ihmono k2 (hmono2 k2 h2)
    · intro k0 hk0
      rw [hstep]
      rcases List.mem_cons.mp hk0 with rfl | hk0
      · by_cases hmem : k0 ∈ layer
        · exact ihexp k0 hmem
        · rw [ihother k0 hmem]
          exact hexp2
      · exact ihexp k0 hk0
    · intro k2 hk2
      rw [hstep]
      have hne : k2 ≠ k := fun he => hk2 (he ▸ List.mem_cons_self _ _)
      have hnm : k2 ∉ layer := fun he => hk2 (List.mem_cons_of_mem _ he)
      rw [ihother k2 hnm]
      exact hother2 k2 hne
    · rw [hstep, ihnext, hS, hbU]
      ext x
      simp only [Finset.mem_union, Finset.mem_sdiff, Finset.mem_union, not_or]
      constructor
      · rintro ((hx | ⟨hx1, hx2⟩) | ⟨hx1, hx2, hx3⟩)
        · exact Or.inl hx
        · exact Or.inr ⟨Or.inl hx1, hx2⟩
        · exact Or.inr ⟨Or.inr hx1, hx2⟩
      · rintro (hx | ⟨hx1 | hx1, hx2⟩)
        · exact Or.inl (Or.inl hx)
        · exact Or.inl (Or.inr ⟨hx1, hx2⟩)
        · by_cases hxS : x ∈ gsuccK k
          · exact Or.inl (Or.inr ⟨hxS, hx2⟩)
          · exact Or.inr ⟨hx1, hx2, hxS⟩
    · rw [hstep, ihknown, hS, hbU]
      ext x
      simp only [Finset.mem_union]
      tauto
    · intro k2 hk2
      rw [hstep]
      rw [hbU] at hk2
      rcases Finset.mem_union.mp hk2 with hk2 | hk2
      · refine ihmono k2 ?_
        rw [← hS] at hk2
        rw [List.mem_toFinset] at hk2
        exact mem_keysFinset.mp (succKeys_mem_keys hc2 hk2)
      · exact ihprod k2 hk2

theorem sweep_loop_succ (d : Nat) (t : Table) (layer : List String)
    (known : Finset String) :
    sweep_loop (d + 1) t layer known =
      if (sweep_step t layer ∅ known).2.1 = ∅ then (sweep_step t layer ∅ known).1
      else sweep_loop d (sweep_step t layer ∅ known).1
        ((sweep_step t layer ∅ known).2.1.sort (· ≤ ·))
        (sweep_step t layer ∅ known).2.2 := rfl

theorem specLayers_succ (d : Nat) (layer known : Finset String) :
    specLayers (d + 1) layer known =
      layer :: (if (layer.biUnion gsuccK) \ known = ∅ then []
        else specLayers d ((layer.biUnion gsuccK) \ known)
          (known ∪ layer.biUnion gsuccK)) := rfl

theorem sweep_loop_spec :
    ∀ (d : Nat) (t : Table) (layer : List String) (known : Finset String),
      WFT t → ClosedT t →
      (∀ k ∈ layer, (tlookup t k).isSome = true) →
      (∀ L ∈ specLayers d layer.toFinset known, ∀ k ∈ L,
        isExpandedAt (sweep_loop d t layer known) k = true) ∧
      (∀ k2, (∀ L ∈ specLayers d layer.toFinset known, k2 ∉ L) →
        isExpandedAt (sweep_loop d t layer known) k2 = isExpandedAt t k2) := by
  intro d
  induction d with
  | zero =>
    intro t layer known _ _ _
    exact ⟨by simp [specLayers], fun k2 _ => rfl⟩
  | succ d ih =>
    intro t layer known hw hc hres
    obtain ⟨SSw, SSc, _, _, SSexp, SSother, SSnext, SSknown, SSprod⟩ :=
      sweep_step_spec layer t ∅ known hw hc hres
    have hnextN : (sweep_step t layer ∅ known).2.1
        = layer.toFinset.biUnion gsuccK \ known := by
      rw [SSnext]
      simp
    by_cases hN : layer.toFinset.biUnion gsuccK \ known = ∅
    · have hloop : sweep_loop (d + 1) t layer known
          = (sweep_step t layer ∅ known).1 := by
        rw [sweep_loop_succ, if_pos (by rw [hnextN]; exact hN)]
      have hspec : specLayers (d + 1) layer.toFinset known = [layer.toFinset] := by
        rw [specLayers_succ, if_pos hN]
      rw [hloop, hspec]
      constructor
      · intro L hL k hk
        simp only [List.mem_singleton] at hL
        subst hL
        exact SSexp k (List.mem_toFinset.mp hk)
      · intro k2 hk2
        have hnm := hk2 _ (List.mem_cons_self _ _)
        exact SSother k2 fun hh => hnm (List.mem_toFinset.mpr hh)
    · have hloop : sweep_loop (d + 1) t layer known
          = sweep_loop d (sweep_step t layer ∅ known).1
              ((sweep_step t layer ∅ known).2.1.sort (· ≤ ·))
              (sweep_step t layer ∅ known).2.2 := by
        rw [sweep_loop_succ, if_neg (by rw [hnextN]; exact hN)]
      have hspec : specLayers (d + 1) layer.toFinset known
          = layer.toFinset ::
              specLayers d (layer.toFinset.biUnion gsuccK \ known)
                (known ∪ layer.toFinset.biUnion gsuccK) := by
        rw [specLayers_succ, if_neg hN]
      have hressort : ∀ k ∈ (sweep_step t layer ∅ known).2.1.sort (· ≤ ·),
          (tlookup (sweep_step t layer ∅ known).1 k).isSome = true := by
        intro k hk
        rw [Finset.mem_sort, hnextN] at hk
        exact SSprod k (Finset.mem_sdiff.mp hk).1
      obtain ⟨iha, ihb⟩ := ih (sweep_step t layer ∅ known).1
        ((sweep_step t layer ∅ known).2.1.sort (· ≤ ·))
        (sweep_step t layer ∅ known).2.2 SSw SSc hressort
      have hsortfin : ((sweep_step t layer ∅ known).2.1.sort (· ≤ ·)).toFinset
          = layer.toFinset.biUnion gsuccK \ known := by
        rw [Finset.sort_toFinset, hnextN]
      rw [hsortfin, SSknown] at iha ihb
      rw [SSknown] at hloop
      constructor
      · intro L hL k hk
        rw [hspec] at hL
        rw [hloop]
        rcases List.mem_cons.mp hL with rfl | hL2
        · by_cases hk2 : ∀ L2 ∈ specLayers d
              (layer.toFinset.biUnion gsuccK \ known)
              (known ∪ layer.toFinset.biUnion gsuccK), k ∉ L2
          · rw [ihb k hk2]
            exact SSexp k (List.mem_toFinset.mp hk)
          · push_neg at hk2
            obtain ⟨L2, hL2, hkL2⟩ := hk2
            exact iha L2 hL2 k hkL2
        · exact iha L hL2 k hk
      · intro k2 hk2
        rw [hspec] at hk2
        have hnm1 := hk2 _ (List.mem_cons_self _ _)
        have hnm2 : ∀ L ∈ specLayers d
            (layer.toFinset.biUnion gsuccK \ known)
            (known ∪ layer.toFinset.biUnion gsuccK), k2 ∉ L :=
          fun L hL => hk2 L (List.mem_cons_of_mem _ hL)
        rw [hloop, ihb k2 hnm2]
        exact SSother k2 fun hh => hnm1 (List.mem_toFinset.mpr hh)

/-- C6: constructing the forward sweep with a non-positive depth fails;
one call of the sweep performs the layered breadth-first expansion the
spec describes: layer zero is the current node alone, every node of every
listed layer (the successors of the previous layer not already visited,
listed up to the configured depth and stopping early at an empty layer) is
expanded afterwards, and the expansion status of every key outside the
listed layers is untouched. -/
theorem c6_forward_sweep_layers :
    (∀ d : Int, d ≤ 0 → mkForwardSweep d = none) ∧
    (∀ (E : Engine) (d : Nat), WF E → ClosedT E.table →
      (1 ≤ d → (specLayers d {E.current} {E.current}).head?
        = some {E.current}) ∧
      (∀ L ∈ specLayers d {E.current} {E.current}, ∀ k ∈ L,
        isExpandedAt (forward_sweep E d).table k = true) ∧
      (∀ k2, (∀ L ∈ specLayers d {E.current} {E.current}, k2 ∉ L) →
        isExpandedAt (forward_sweep E d).table k2
          = isExpandedAt E.table k2)) := by
  constructor
  · intro d hd
    unfold mkForwardSweep
    rw [if_neg (by omega)]
  · intro E d hw hc
    have hres : ∀ k ∈ [E.current], (tlookup E.table k).isSome = true := by
      intro k hk
      simp only [List.mem_singleton] at hk
      rw [hk]
      exact hw.2
    obtain ⟨la, lb⟩ := sweep_loop_spec d E.table [E.current] {E.current} hw.1 hc hres
    have hfin : ([E.current] : List String).toFinset = {E.current} := by simp
    rw [hfin] at la lb
    refine ⟨?_, la, lb⟩
    intro hd
    cases d with
    | zero => omega
    | succ d2 => rfl

/-- Witness for C6: depth zero is rejected, and the depth-one sweep on the
initial engine of the starting state satisfies the layer description. -/
theorem c6_forward_sweep_layers_witness :
    mkForwardSweep (-1) = none ∧
    ((1 ≤ 1 → (specLayers 1 {(init_engine starting_state).current}
        {(init_engine starting_state).current}).head?
        = some {(init_engine starting_state).current}) ∧
     (∀ L ∈ specLayers 1 {(init_engine starting_state).current}
        {(init_engine starting_state).current}, ∀ k ∈ L,
        isExpandedAt (forward_sweep (init_engine starting_state) 1).table k
          = true) ∧
     (∀ k2, (∀ L ∈ specLayers 1 {(init_engine starting_state).current}
          {(init_engine starting_state).current}, k2 ∉ L) →
        isExpandedAt (forward_sweep (init_engine starting_state) 1).table k2
          = isExpandedAt (init_engine starting_state).table k2)) :=
  ⟨c6_forward_sweep_layers.1 (-1) (by decide),
   c6_forward_sweep_layers.2 (init_engine starting_state) 1 (by decide) (by decide)⟩

end Bobbot
